import Mathlib

/-!
# Verification of the `tex-linebreak` core line-breaking engine

This file gives a shallow embedding, in Lean 4, of the core of the
`tex-linebreak` library (`src/layout.ts`, exposed in the repository as
`src/src/html.ts`): the Knuth–Plass breakpoint optimizer `breakLines`, the
per-line ratio computer `adjustmentRatios`, the positioner `positionItems`,
the `forcedBreak` helper and the string helper `layoutItemsFromString`.

JavaScript numbers are modelled by exact rationals (`ℚ`) together with the
three exceptional values `NaN`, `+Infinity` and `-Infinity` (the type `JNum`
below); JavaScript's division, comparison, `Math.min`/`Math.max` and
`isFinite` semantics on these values are reproduced exactly (division by
zero yields a signed infinity, `0/0` yields `NaN`, every comparison with
`NaN` is false).  The JS `Set` used for the active node set is modelled as
a list in insertion order, which matches JS `Set` iteration semantics; `Set
.delete` during `forEach` of the current element is modelled by filtering.
The unbounded recursive retry of `breakLines` is modelled with an explicit
fuel parameter; the top-level `breakLines` supplies a fuel that is proved
sufficient (so a `none` result, which never actually occurs, would model
non-termination of the retry recursion).
-/

/-- `Box`, `Glue` and `Penalty` items, the tagged union consumed by
`breakLines` (`type: 'box' | 'glue' | 'penalty'` in the source). -/
inductive InputItem where
  | box (width : ℚ)
  | glue (width stretch shrink : ℚ)
  | penalty (width cost : ℚ) (flagged : Bool)
deriving DecidableEq, Repr

/-- The `width` field shared by all three item variants. -/
def InputItem.width : InputItem → ℚ
  | .box w => w
  | .glue w _ _ => w
  | .penalty w _ _ => w

/-- `MIN_COST`: values `<= MIN_COST` force a break. -/
def MIN_COST : ℚ := -1000

/-- `MAX_COST`: values `>= MAX_COST` prevent a break. -/
def MAX_COST : ℚ := 1000

/-- `MIN_ADJUSTMENT_RATIO` from the source. -/
def MIN_ADJUSTMENT_RATIO : ℚ := -1

/-- `isForcedBreak(item)`: a penalty with `cost <= MIN_COST`. -/
def isForcedBreak : InputItem → Bool
  | .penalty _ c _ => c ≤ MIN_COST
  | _ => false

/-- `forcedBreak()`: penalty item with cost `MIN_COST`, width 0, not flagged. -/
def forcedBreak : InputItem := .penalty 0 MIN_COST false

/-- A JavaScript `number` restricted to the values the engine actually
produces: an exact rational, `NaN`, or a signed infinity. -/
inductive JNum where
  | nan
  | negInf
  | fin (q : ℚ)
  | posInf
deriving DecidableEq, Repr

namespace JNum

/-- JS `x < c` for a possibly non-finite `x` and a finite `c`
(`NaN` compares false). -/
def ltQ : JNum → ℚ → Bool
  | .nan, _ => false
  | .negInf, _ => true
  | .posInf, _ => false
  | .fin p, c => p < c

/-- JS `x > c` for a possibly non-finite `x` and a finite `c`. -/
def gtQ : JNum → ℚ → Bool
  | .nan, _ => false
  | .negInf, _ => false
  | .posInf, _ => true
  | .fin p, c => c < p

/-- JS `x >= c` for a possibly non-finite `x` and a finite `c`. -/
def geQ : JNum → ℚ → Bool
  | .nan, _ => false
  | .negInf, _ => false
  | .posInf, _ => true
  | .fin p, c => c ≤ p

/-- JS `x <= c` for a possibly non-finite `x` and a finite `c`. -/
def leQ : JNum → ℚ → Bool
  | .nan, _ => false
  | .negInf, _ => true
  | .posInf, _ => false
  | .fin p, c => p ≤ c

/-- JS `c < x` for a finite `c` and possibly non-finite `x`. -/
def qLt (c : ℚ) : JNum → Bool
  | .nan => false
  | .negInf => false
  | .posInf => true
  | .fin p => c < p

/-- JS subtraction `x - c` with `x` possibly non-finite and `c` finite. -/
def subQ : JNum → ℚ → JNum
  | .nan, _ => .nan
  | .negInf, _ => .negInf
  | .posInf, _ => .posInf
  | .fin p, c => .fin (p - c)

/-- JS division `x / d` with `x` possibly non-finite and `d` finite.
Division of a nonzero finite numerator by zero yields a signed infinity,
`0 / 0` yields `NaN`, `±Infinity / 0` keeps the sign (JS semantics). -/
def divQ : JNum → ℚ → JNum
  | .nan, _ => .nan
  | .posInf, d => if d < 0 then .negInf else .posInf
  | .negInf, d => if d < 0 then .posInf else .negInf
  | .fin p, d =>
    if d ≠ 0 then .fin (p / d)
    else if 0 < p then .posInf
    else if p < 0 then .negInf
    else .nan

/-- JS `Math.min` (returns `NaN` if either argument is `NaN`). -/
def jmin : JNum → JNum → JNum
  | .nan, _ => .nan
  | _, .nan => .nan
  | .negInf, _ => .negInf
  | _, .negInf => .negInf
  | .posInf, y => y
  | x, .posInf => x
  | .fin p, .fin q => .fin (min p q)

/-- JS `Math.max` (returns `NaN` if either argument is `NaN`). -/
def jmax : JNum → JNum → JNum
  | .nan, _ => .nan
  | _, .nan => .nan
  | .posInf, _ => .posInf
  | _, .posInf => .posInf
  | .negInf, y => y
  | x, .negInf => x
  | .fin p, .fin q => .fin (max p q)

/-- JS addition `x + y` for values that are never two opposite infinities
in this development. -/
def add : JNum → JNum → JNum
  | .nan, _ => .nan
  | _, .nan => .nan
  | .posInf, .negInf => .nan
  | .negInf, .posInf => .nan
  | .posInf, _ => .posInf
  | _, .posInf => .posInf
  | .negInf, _ => .negInf
  | _, .negInf => .negInf
  | .fin p, .fin q => .fin (p + q)

/-- JS multiplication `x * y` (`±Infinity * 0` is `NaN`). -/
def mul : JNum → JNum → JNum
  | .nan, _ => .nan
  | _, .nan => .nan
  | .posInf, .posInf => .posInf
  | .posInf, .negInf => .negInf
  | .negInf, .posInf => .negInf
  | .negInf, .negInf => .posInf
  | .posInf, .fin q => if 0 < q then .posInf else if q < 0 then .negInf else .nan
  | .fin p, .posInf => if 0 < p then .posInf else if p < 0 then .negInf else .nan
  | .negInf, .fin q => if 0 < q then .negInf else if q < 0 then .posInf else .nan
  | .fin p, .negInf => if 0 < p then .negInf else if p < 0 then .posInf else .nan
  | .fin p, .fin q => .fin (p * q)

/-- JS `isFinite`. -/
def isFinite : JNum → Bool
  | .fin _ => true
  | _ => false

end JNum

/-- The `lineLengths` argument of the public functions: a single number or a
per-line array (`number | number[]`). -/
inductive LineLengths where
  | const (w : ℚ)
  | perLine (ws : List ℚ)
deriving DecidableEq, Repr

/-- `lineLen(i)`: the constant width, or the `i`-th array entry.  Reading
past the end of a JS array yields `undefined`, which behaves like `NaN` in
the arithmetic and comparisons that follow, so that case is modelled as
`NaN`. -/
def lineLen : LineLengths → ℕ → JNum
  | .const w, _ => .fin w
  | .perLine ws, i =>
    match ws.get? i with
    | some w => .fin w
    | none => .nan

/-- The adjustment-ratio computation shared (verbatim, in the source) by the
optimizer and `adjustmentRatios`: pick the stretch denominator when the
actual length is short of the ideal, the shrink denominator otherwise. -/
def adjRatioCore (idealLen : JNum) (actualLen lineStretch lineShrink : ℚ) : JNum :=
  if JNum.qLt actualLen idealLen then (idealLen.subQ actualLen).divQ lineStretch
  else (idealLen.subQ actualLen).divQ lineShrink

/-- The optimizer's per-transition adjustment ratio `r(a, b)` (lines
1564–1581 of the source): totals `(tW, tSt, tSh)` and line number `line`
come from the active node `a`, the running sums from the main loop, and the
width of `item` is added to the actual length when `item` is a penalty. -/
def adjRatio (ll : LineLengths) (item : InputItem) (sumWidth sumStretch sumShrink : ℚ)
    (tW tSt tSh : ℚ) (line : ℕ) : JNum :=
  let lineShrink := sumShrink - tSh
  let lineStretch := sumStretch - tSt
  let idealLen := lineLen ll line
  let actualLen := sumWidth - tW +
    (match item with
     | .penalty w _ _ => w
     | _ => 0)
  adjRatioCore idealLen actualLen lineStretch lineShrink

/-- The data fields of an active node (everything except `prev`). -/
structure NodeData where
  index : ℕ
  line : ℕ
  fitness : ℕ
  totalWidth : ℚ
  totalStretch : ℚ
  totalShrink : ℚ
  totalDemerits : ℚ
deriving DecidableEq, Repr

/-- An active node of the optimizer.  `base d` is a node whose `prev` is
`null`, `cons d p` a node with predecessor `p`. -/
inductive Node where
  | base (d : NodeData)
  | cons (d : NodeData) (prev : Node)
deriving DecidableEq, Repr

/-- The data record of a node. -/
def Node.d : Node → NodeData
  | .base d => d
  | .cons d _ => d

/-- The `prev` pointer of a node (`none` models `null`). -/
def Node.prev : Node → Option Node
  | .base _ => none
  | .cons _ p => some p

/-- The sequence of `index` fields along the `prev` chain, starting from
the node itself (the order in which `breakLines` pushes them before the
final `reverse`). -/
def Node.chainIndices : Node → List ℕ
  | .base d => [d.index]
  | .cons d p => d.index :: p.chainIndices

/-- The triple of cumulative totals stored on a node. -/
def Node.totals (a : Node) : ℚ × ℚ × ℚ :=
  (a.d.totalWidth, a.d.totalStretch, a.d.totalShrink)

/-- The options record of `breakLines` after merging with
`defaultOptions`. -/
structure Options where
  maxAdjustmentRatio : Option ℚ
  initialMaxAdjustmentRatio : ℚ
  doubleHyphenPenalty : ℚ
  adjacentLooseTightPenalty : ℚ
deriving DecidableEq, Repr

/-- `defaultOptions` from the source. -/
def defaultOptions : Options :=
  { maxAdjustmentRatio := none
    initialMaxAdjustmentRatio := 1
    doubleHyphenPenalty := 0
    adjacentLooseTightPenalty := 0 }

/-- `currentMaxAdjustmentRatio = Math.min(initialMaxAdjustmentRatio,
maxAdjustmentRatio ?? Infinity)`. -/
def currentMax (opts : Options) : ℚ :=
  match opts.maxAdjustmentRatio with
  | none => opts.initialMaxAdjustmentRatio
  | some m => min opts.initialMaxAdjustmentRatio m

/-- The errors `breakLines` can throw: the two `InvalidItem` messages
("disallowed negative width" / "disallowed negative stretch or shrink",
each carrying the item index), `MaxAdjustmentExceededError`, and the
`TypeError` that dereferencing a null `lastActive!` would raise (proved
unreachable below). -/
inductive BreakError where
  | negativeWidth (index : ℕ)
  | negativeStretchShrink (index : ℕ)
  | maxAdjustmentExceeded
  | nullLastActive
deriving DecidableEq, Repr

/-- Whether an error is one of the two `InvalidItem` programmer errors. -/
def BreakError.isInvalidItem : BreakError → Bool
  | .negativeWidth _ => true
  | .negativeStretchShrink _ => true
  | _ => false

/-- The mutable state of one pass of the main loop of `breakLines`: the
active list (JS `Set` in insertion order), the three running sums, and
`minAdjustmentRatioAboveThreshold`. -/
structure PassState where
  active : List Node
  sumWidth : ℚ
  sumStretch : ℚ
  sumShrink : ℚ
  minAdjAbove : JNum
deriving DecidableEq, Repr

/-- The initial state: one sentinel node for the beginning of the
paragraph, zero sums, `minAdjustmentRatioAboveThreshold = Infinity`. -/
def initialState : PassState :=
  { active := [.base ⟨0, 0, 0, 0, 0, 0, 0⟩]
    sumWidth := 0
    sumStretch := 0
    sumShrink := 0
    minAdjAbove := .posInf }

/-- The lookahead of step 4 of the optimizer: sum of `width` (and, for
glue, `stretch`/`shrink`) of the items from the breakpoint itself up to,
but not including, the next box or penalty with `cost >= MAX_COST`.
The argument is `items.drop b`. -/
def toNextBox : List InputItem → ℚ × ℚ × ℚ
  | [] => (0, 0, 0)
  | .box _ :: _ => (0, 0, 0)
  | .glue w st sh :: rest =>
    let (w2, st2, sh2) := toNextBox rest
    (w + w2, st + st2, sh + sh2)
  | .penalty w c _ :: rest =>
    if c ≥ MAX_COST then (0, 0, 0)
    else
      let (w2, st2, sh2) := toNextBox rest
      (w + w2, st2, sh2)

/-- The node pushed onto `feasible` for a transition from active node `a`
to a breakpoint at index `b` with (finite) adjustment ratio `q`:
demerits (Knuth–Plass p. 1128), the double-hyphen penalty, the fitness
class and the adjacent-fitness penalty, and cumulative totals that include
the lookahead to the next box.  `restAll` is `items.drop b`. -/
def mkFeasible (items : List InputItem) (opts : Options) (b : ℕ) (item : InputItem)
    (restAll : List InputItem) (sumWidth sumStretch sumShrink : ℚ)
    (a : Node) (q : ℚ) : Node :=
  let badness : ℚ := 100 * |q| ^ 3
  let penalty : ℚ :=
    match item with
    | .penalty _ c _ => c
    | _ => 0
  let demerits0 : ℚ :=
    if 0 ≤ penalty then (1 + badness + penalty) ^ 2
    else if MIN_COST < penalty then (1 + badness) ^ 2 - penalty ^ 2
    else (1 + badness) ^ 2
  let doubleHyphenPenalty : ℚ :=
    match item, items.get? a.d.index with
    | .penalty _ _ fl, some (.penalty _ _ fl2) =>
      if fl && fl2 then opts.doubleHyphenPenalty else 0
    | _, _ => 0
  let demerits1 : ℚ := demerits0 + doubleHyphenPenalty
  let fitness : ℕ :=
    if q < -(1 / 2) then 0
    else if q < 1 / 2 then 1
    else if q < 1 then 2
    else 3
  let demerits : ℚ :=
    if 0 < a.d.index ∧ 1 < ((fitness : ℤ) - (a.d.fitness : ℤ)).natAbs
    then demerits1 + opts.adjacentLooseTightPenalty
    else demerits1
  let (wNext, stNext, shNext) := toNextBox restAll
  .cons
    { index := b
      line := a.d.line + 1
      fitness := fitness
      totalWidth := sumWidth + wNext
      totalStretch := sumStretch + stNext
      totalShrink := sumShrink + shNext
      totalDemerits := a.d.totalDemerits + demerits }
    a

/-- The fallback node injected at step 6 when the active set empties and no
larger threshold would have helped: break at the current position, totals
equal to the running sums, demerits `lastActive.totalDemerits + 1000`. -/
def mkFallback (b : ℕ) (sumWidth sumStretch sumShrink : ℚ) (la : Node) : Node :=
  .cons
    { index := b
      line := la.d.line + 1
      fitness := 1
      totalWidth := sumWidth
      totalStretch := sumStretch
      totalShrink := sumShrink
      totalDemerits := la.d.totalDemerits + 1000 }
    la

/-- First node with minimal `totalDemerits` of a list (the pattern
`best = l[0]; for f of l: if f.totalDemerits < best.totalDemerits ...`
used both for `feasible` and for the final choice). -/
def pickBest : List Node → Option Node
  | [] => none
  | a :: rest =>
    some (rest.foldl (fun best f =>
      if f.d.totalDemerits < best.d.totalDemerits then f else best) a)

/-- Result of the `active.forEach` sweep at one breakpoint candidate:
the surviving active nodes (in order), the `feasible` list (in push
order), the updated `minAdjustmentRatioAboveThreshold`, and the last
deleted node (`lastActive`). -/
structure VisitResult where
  kept : List Node
  feasible : List Node
  minAdj : JNum
  lastActive : Option Node
deriving DecidableEq, Repr

/-- The `active.forEach` body of `breakLines` over the active list in
iteration order: compute the ratio from each node, track
`minAdjustmentRatioAboveThreshold`, delete nodes whose ratio is below
`MIN_ADJUSTMENT_RATIO` (or unconditionally at a forced break, remembering
the last deleted node), and collect feasible transitions. -/
def visitNodes (items : List InputItem) (ll : LineLengths) (opts : Options) (cur : ℚ)
    (b : ℕ) (item : InputItem) (restAll : List InputItem)
    (sumWidth sumStretch sumShrink : ℚ) :
    List Node → JNum → Option Node → VisitResult
  | [], m, la => ⟨[], [], m, la⟩
  | a :: rest, m, la =>
    let r := adjRatio ll item sumWidth sumStretch sumShrink
      a.d.totalWidth a.d.totalStretch a.d.totalShrink a.d.line
    let m2 := if r.gtQ cur then r.jmin m else m
    let deleted := r.ltQ MIN_ADJUSTMENT_RATIO || isForcedBreak item
    let la2 := if deleted then some a else la
    let feas : List Node :=
      match r with
      | .fin q => if MIN_ADJUSTMENT_RATIO ≤ q ∧ q ≤ cur then
          [mkFeasible items opts b item restAll sumWidth sumStretch sumShrink a q]
        else []
      | _ => []
    let res := visitNodes items ll opts cur b item restAll
      sumWidth sumStretch sumShrink rest m2 la2
    { res with
      kept := (if deleted then [] else [a]) ++ res.kept
      feasible := feas ++ res.feasible }

/-- Result of processing one item of the main loop: continue with an
updated state, restart the whole computation with a relaxed threshold
(the recursive call of `breakLines`), or throw. -/
inductive StepResult where
  | cont (st : PassState)
  | retry (q : ℚ)
  | err (e : BreakError)
deriving DecidableEq, Repr

/-- Fold a glue item's width/stretch/shrink into the running sums (the
`if (item.type === 'glue')` block at the end of each loop iteration). -/
def foldGlue (st : PassState) (item : InputItem) : PassState :=
  match item with
  | .glue w stc shr =>
    { st with
      sumWidth := st.sumWidth + w
      sumStretch := st.sumStretch + stc
      sumShrink := st.sumShrink + shr }
  | _ => st

/-- Breakpoint handling for a legal breakpoint at index `b` (`restAll =
items.drop b`): sweep the active set, add the best feasible node, and on an
empty active set throw, retry, or inject the fallback breakpoint; finally
fold the glue sums when the item is glue. -/
def processBreak (items : List InputItem) (ll : LineLengths) (opts : Options) (cur : ℚ)
    (b : ℕ) (item : InputItem) (restAll : List InputItem) (st : PassState) : StepResult :=
  let v := visitNodes items ll opts cur b item restAll
    st.sumWidth st.sumStretch st.sumShrink st.active st.minAdjAbove none
  let newActive := v.kept ++
    (match pickBest v.feasible with
     | some bn => [bn]
     | none => [])
  if newActive = [] then
    match v.minAdj with
    | .fin q =>
      if opts.maxAdjustmentRatio = some cur then .err .maxAdjustmentExceeded
      else .retry q
    | _ =>
      match v.lastActive with
      | some la =>
        .cont (foldGlue
          { st with
            active := [mkFallback b st.sumWidth st.sumStretch st.sumShrink la]
            minAdjAbove := v.minAdj } item)
      | none => .err .nullLastActive
  else
    .cont (foldGlue { st with active := newActive, minAdjAbove := v.minAdj } item)

/-- Whether an optional item is a box (`items[b-1].type === 'box'`). -/
def isBoxOpt : Option InputItem → Bool
  | some (.box _) => true
  | _ => false

/-- One iteration of the main loop of `breakLines` for the item at index
`b` (`restAll = items.drop b = item :: _`): the negative-width and
negative-stretch/shrink validations, the `canBreak` determination with the
running-sum updates for non-breakable items, and the breakpoint handling. -/
def blStep (items : List InputItem) (ll : LineLengths) (opts : Options) (cur : ℚ)
    (b : ℕ) (item : InputItem) (restAll : List InputItem) (st : PassState) : StepResult :=
  if item.width < 0 then .err (.negativeWidth b)
  else
    match item with
    | .box w => .cont { st with sumWidth := st.sumWidth + w }
    | .glue w stc shr =>
      if shr < 0 ∨ stc < 0 then .err (.negativeStretchShrink b)
      else if 0 < b ∧ isBoxOpt (items.get? (b - 1)) then
        processBreak items ll opts cur b item restAll st
      else
        .cont { st with
          sumWidth := st.sumWidth + w
          sumShrink := st.sumShrink + shr
          sumStretch := st.sumStretch + stc }
    | .penalty _ c _ =>
      if c < MAX_COST then processBreak items ll opts cur b item restAll st
      else .cont st

/-- Walk the `prev` chain back from the best active node and reverse, as at
the end of `breakLines`; an empty active set yields `[]` (`bestNode` stays
`null` and the `while` loop body never runs). -/
def finishPass (st : PassState) : List ℕ :=
  match pickBest st.active with
  | none => []
  | some best => best.chainIndices.reverse

/-- Result of one full pass over the items. -/
inductive PassResult where
  | done (breakpoints : List ℕ)
  | retry (q : ℚ)
  | err (e : BreakError)
deriving DecidableEq, Repr

/-- The main loop of `breakLines` over the remaining items (`rest =
items.drop b`). -/
def blLoop (items : List InputItem) (ll : LineLengths) (opts : Options) (cur : ℚ) :
    ℕ → PassState → List InputItem → PassResult
  | _, st, [] => .done (finishPass st)
  | b, st, item :: rest =>
    match blStep items ll opts cur b item (item :: rest) st with
    | .cont st2 => blLoop items ll opts cur (b + 1) st2 rest
    | .retry q => .retry q
    | .err e => .err e

/-- One full pass of `breakLines` at the threshold determined by `opts`. -/
def blPass (items : List InputItem) (ll : LineLengths) (opts : Options) : PassResult :=
  blLoop items ll opts (currentMax opts) 0 initialState items

/-- `breakLines` with an explicit bound on the number of retry recursions
(`none` = the bound was exhausted; the top-level `breakLines` supplies a
provably sufficient bound). -/
def breakLinesFuel : ℕ → List InputItem → LineLengths → Options →
    Option (Except BreakError (List ℕ))
  | 0, _, _, _ => none
  | fuel + 1, items, ll, opts =>
    if items = [] then some (.ok [])
    else
      match blPass items ll opts with
      | .done bps => some (.ok bps)
      | .err e => some (.error e)
      | .retry q =>
        breakLinesFuel fuel items ll { opts with initialMaxAdjustmentRatio := q }

/-- Fuel that is proved sufficient for the retry recursion: each retry
strictly consumes elements of a finite set of candidate ratio values of
size at most `(2n+1)·(n+1)·n`. -/
def fuelBound (items : List InputItem) : ℕ :=
  2 * ((2 * items.length + 1) * (items.length + 1) * items.length) + 2

/-- `breakLines(items, lineLengths, opts)`.  `some (.ok bps)` models a
normal return, `some (.error e)` a thrown error, and `none` (proved
impossible) exhaustion of the retry bound. -/
def breakLines (items : List InputItem) (ll : LineLengths) (opts : Options) :
    Option (Except BreakError (List ℕ)) :=
  breakLinesFuel (fuelBound items) items ll opts

/-- Start index of line `b`: `breakpoints[0]` for the first line,
`breakpoints[b] + 1` otherwise (the break itself is not part of the next
line). -/
def lineStartIdx (breakpoints : List ℕ) (b : ℕ) : ℕ :=
  if b = 0 then breakpoints.getD 0 0 else breakpoints.getD b 0 + 1

/-- End index of line `b`: `breakpoints[b + 1]`. -/
def lineEndIdx (breakpoints : List ℕ) (b : ℕ) : ℕ :=
  breakpoints.getD (b + 1) 0

/-- The indices `start..end` (inclusive) swept by the per-line loops of
`adjustmentRatios` and `positionItems`. -/
def lineIdxList (breakpoints : List ℕ) (b : ℕ) : List ℕ :=
  List.range' (lineStartIdx breakpoints b)
    (lineEndIdx breakpoints b + 1 - lineStartIdx breakpoints b)

/-- The per-line accumulation loop of `adjustmentRatios`: for each index in
the line, add box widths to `actualWidth`; glue not at either endpoint adds
width/shrink/stretch; a penalty at the ending endpoint adds its width.  The
accumulator is `(actualWidth, lineShrink, lineStretch)`. -/
def arAccum (items : List InputItem) (start lend : ℕ) :
    List ℕ → ℚ × ℚ × ℚ → ℚ × ℚ × ℚ
  | [], acc => acc
  | p :: rest, (aw, lsh, lst) =>
    arAccum items start lend rest
      (match items.get? p with
       | some (.box w) => (aw + w, lsh, lst)
       | some (.glue w stc shr) =>
         if p ≠ start ∧ p ≠ lend then (aw + w, lsh + shr, lst + stc) else (aw, lsh, lst)
       | some (.penalty w _ _) => if p = lend then (aw + w, lsh, lst) else (aw, lsh, lst)
       | none => (aw, lsh, lst))

/-- `adjustmentRatios(items, lineLengths, breakpoints)`: one ratio per
line, computed with the same short-of-ideal/over-ideal division as the
optimizer. -/
def adjustmentRatios (items : List InputItem) (ll : LineLengths)
    (breakpoints : List ℕ) : List JNum :=
  (List.range (breakpoints.length - 1)).map fun b =>
    let start := lineStartIdx breakpoints b
    let lend := lineEndIdx breakpoints b
    let acc := arAccum items start lend (lineIdxList breakpoints b) (0, 0, 0)
    adjRatioCore (lineLen ll b) acc.1 acc.2.2 acc.2.1

/-- One positioned item of `positionItems` (`PositionedItem` in the
source); `xOffset` and `width` are JS numbers. -/
structure PositionedItem where
  item : ℕ
  line : ℕ
  xOffset : JNum
  width : JNum
deriving DecidableEq, Repr

/-- `PositionOptions`. -/
structure PositionOptions where
  includeGlue : Bool
deriving DecidableEq, Repr

/-- The per-line sweep of `positionItems` over the index list, carrying
`xOffset`: boxes emit a record and advance by their width; glue not at
either endpoint computes the adjusted `gap` (shrink side for a negative
ratio, stretch side otherwise), emits a record when `includeGlue` is set,
and always advances by the gap; a penalty at the ending endpoint with
positive width emits a record. -/
def posAccum (items : List InputItem) (start lend : ℕ) (b : ℕ)
    (includeGlue : Bool) (r : JNum) : List ℕ → JNum → List PositionedItem
  | [], _ => []
  | p :: rest, xOffset =>
    match items.get? p with
    | some (.box w) =>
      ⟨p, b, xOffset, .fin w⟩ ::
        posAccum items start lend b includeGlue r rest (xOffset.add (.fin w))
    | some (.glue w stc shr) =>
      if p ≠ start ∧ p ≠ lend then
        let gap := if r.ltQ 0 then (JNum.fin w).add (r.mul (.fin shr))
          else (JNum.fin w).add (r.mul (.fin stc))
        (if includeGlue then [⟨p, b, xOffset, gap⟩] else []) ++
          posAccum items start lend b includeGlue r rest (xOffset.add gap)
      else posAccum items start lend b includeGlue r rest xOffset
    | some (.penalty w _ _) =>
      if p = lend ∧ 0 < w then
        ⟨p, b, xOffset, .fin w⟩ :: posAccum items start lend b includeGlue r rest xOffset
      else posAccum items start lend b includeGlue r rest xOffset
    | none => posAccum items start lend b includeGlue r rest xOffset

/-- `positionItems(items, lineLengths, breakpoints, options)`: ratios from
`adjustmentRatios`, each clamped from below to `MIN_ADJUSTMENT_RATIO`,
then the per-line sweep with `xOffset` starting at 0. -/
def positionItems (items : List InputItem) (ll : LineLengths)
    (breakpoints : List ℕ) (options : PositionOptions) : List PositionedItem :=
  let adjRatios := adjustmentRatios items ll breakpoints
  (List.range (breakpoints.length - 1)).flatMap fun b =>
    let adjustmentRatio := (adjRatios.getD b .nan).jmax (.fin MIN_ADJUSTMENT_RATIO)
    posAccum items (lineStartIdx breakpoints b) (lineEndIdx breakpoints b) b
      options.includeGlue adjustmentRatio (lineIdxList breakpoints b) (.fin 0)

/-- Items produced by `layoutItemsFromString`: boxes and glues carry the
text they came from (`TextBox`, `TextGlue`), penalties are plain. -/
inductive TextInputItem where
  | box (width : ℚ) (text : String)
  | glue (width stretch shrink : ℚ) (text : String)
  | penalty (width cost : ℚ) (flagged : Bool)
deriving DecidableEq, Repr

/-- The JS `\s` test used on the first character of a chunk. -/
def isSpaceChar (c : Char) : Bool :=
  c = ' ' ∨ c = '\t' ∨ c = '\n' ∨ c = '\r' ∨ c = '\x0b' ∨ c = '\x0c'

/-- Splitting a character list into maximal runs of whitespace /
non-whitespace characters, as `s.split(/(\s+)/).filter(w => w.length > 0)`
does (the capture group keeps the separators).  The first argument is
fuel, instantiated with the length of the list. -/
def chunkRunsAux : ℕ → List Char → List (List Char)
  | 0, _ => []
  | _ + 1, [] => []
  | fuel + 1, c :: cs =>
    (c :: cs.takeWhile (fun d => isSpaceChar d = isSpaceChar c)) ::
      chunkRunsAux fuel (cs.dropWhile (fun d => isSpaceChar d = isSpaceChar c))

/-- The chunks of a string: maximal whitespace and non-whitespace runs. -/
def chunkRuns (s : String) : List String :=
  (chunkRunsAux s.toList.length s.toList).map List.asString

/-- The box/penalty items for the hyphenatable pieces of one word:
a box per piece, with a flagged width-`hyphenWidth` cost-10 penalty
between consecutive pieces. -/
def hyphenItems (measureFn : String → ℚ) (hyphenWidth : ℚ) :
    List String → List TextInputItem
  | [] => []
  | [c] => [.box (measureFn c) c]
  | c :: c2 :: rest =>
    .box (measureFn c) c :: .penalty hyphenWidth 10 true ::
      hyphenItems measureFn hyphenWidth (c2 :: rest)

/-- `layoutItemsFromString(s, measureFn, hyphenateFn?)`: split into chunks;
whitespace runs become glue of width `measure(" ")`, shrink
`max(0, measure(" ") - 2)` and stretch `1.5 * measure(" ")`; words become a
single box, or hyphenatable boxes with flagged penalties; the sequence is
terminated with the zero-width stretch-`MAX_COST` finishing glue and a
forced break. -/
def layoutItemsFromString (s : String) (measureFn : String → ℚ)
    (hyphenateFn : Option (String → List String)) : List TextInputItem :=
  let spaceWidth := measureFn " "
  let hyphenWidth := measureFn "-"
  let shrink := max 0 (spaceWidth - 2)
  let body := (chunkRuns s).flatMap fun w =>
    if (match w.toList.head? with
        | some c => isSpaceChar c
        | none => false) then
      [.glue spaceWidth (spaceWidth * (3 / 2)) shrink w]
    else
      match hyphenateFn with
      | some hy => hyphenItems measureFn hyphenWidth (hy w)
      | none => [.box (measureFn w) w]
  body ++ [.glue 0 MAX_COST 0 "", .penalty 0 MIN_COST false]

/-- The running sums `(sumWidth, sumStretch, sumShrink)` of the main loop
at entry of iteration `b`: box and glue widths of the first `b` items, and
glue stretch/shrink of the first `b` items (penalty widths are never folded
into the sums). -/
def prefixSums (items : List InputItem) : ℕ → ℚ × ℚ × ℚ
  | 0 => (0, 0, 0)
  | b + 1 =>
    let (w, st, sh) := prefixSums items b
    match items.get? b with
    | some (.box bw) => (w + bw, st, sh)
    | some (.glue gw gst gsh) => (w + gw, st + gst, sh + gsh)
    | _ => (w, st, sh)

/-- The totals stored on a feasible node created at breakpoint `b`: running
sums at `b` plus the lookahead to the next box. -/
def nodeTotAt (items : List InputItem) (b : ℕ) : ℚ × ℚ × ℚ :=
  let p := prefixSums items b
  let t := toNextBox (items.drop b)
  (p.1 + t.1, p.2.1 + t.2.1, p.2.2 + t.2.2)

/-- Every totals triple a node of the optimizer can carry: the sentinel's
zeros, a fallback node's running sums, or a feasible node's sums plus
lookahead. -/
def totalsSet (items : List InputItem) : Finset (ℚ × ℚ × ℚ) :=
  insert (0, 0, 0)
    (((Finset.range items.length).image (prefixSums items)) ∪
      ((Finset.range items.length).image (nodeTotAt items)))

/-- The finite part of a JS number (used only to collect candidate ratio
values into a `Finset ℚ`). -/
def jToQ : JNum → ℚ
  | .fin q => q
  | _ => 0

/-- The adjustment ratio the optimizer computes at breakpoint `b` from a
node carrying totals `t` on line `l` (running sums reconstructed as prefix
sums). -/
def ratAt (items : List InputItem) (ll : LineLengths) (t : ℚ × ℚ × ℚ)
    (l b : ℕ) : JNum :=
  match items.get? b with
  | some item =>
    adjRatio ll item (prefixSums items b).1 (prefixSums items b).2.1
      (prefixSums items b).2.2 t.1 t.2.1 t.2.2 l
  | none => .nan

/-- All finite adjustment-ratio values any pass of the optimizer can
compute, as a finite set: totals from `totalsSet`, line below `n + 1`,
breakpoint below `n`. -/
def ratioSetQ (items : List InputItem) (ll : LineLengths) : Finset ℚ :=
  ((totalsSet items) ×ˢ ((Finset.range (items.length + 1)) ×ˢ
      (Finset.range items.length))).image
    (fun x => jToQ (ratAt items ll x.1 x.2.1 x.2.2))

/-- The item at index `k` is a forced break. -/
def isForcedAt (items : List InputItem) (k : ℕ) : Prop :=
  match items.get? k with
  | some it => isForcedBreak it = true
  | none => False

/-- Well-formedness of the back-pointer chain of a node: the root has
index 0, and indices strictly increase along the chain, except that a
fallback node injected at position 0 may repeat the sentinel's index 0. -/
def Node.wfChain : Node → Prop
  | .base d => d.index = 0
  | .cons d p =>
    (p.d.index < d.index ∨ (p.d.index = 0 ∧ d.index = 0 ∧ p.prev = none)) ∧
      p.wfChain

/-- Every link of the chain of a node is either a feasible transition whose
adjustment ratio (as the optimizer computed it) lies in
`[MIN_ADJUSTMENT_RATIO, cur]`, or a step-6 fallback node (recognizable by
its sums-without-lookahead totals, fitness class 1, and
`lastActive.totalDemerits + 1000` demerits). -/
def Node.chainRatioOK (items : List InputItem) (ll : LineLengths) (cur : ℚ) :
    Node → Prop
  | .base _ => True
  | .cons d p =>
    ((∃ q, ratAt items ll p.totals p.d.line d.index = .fin q ∧
        MIN_ADJUSTMENT_RATIO ≤ q ∧ q ≤ cur) ∨
      ((d.totalWidth, d.totalStretch, d.totalShrink) = prefixSums items d.index ∧
        d.fitness = 1 ∧ d.totalDemerits = p.d.totalDemerits + 1000)) ∧
      p.chainRatioOK items ll cur

/-- Invariant of a single active node at entry of loop iteration `b`. -/
structure NodeOK (items : List InputItem) (ll : LineLengths) (cur : ℚ)
    (b : ℕ) (a : Node) : Prop where
  totalsMem : a.totals ∈ totalsSet items
  lineLe : a.d.line ≤ b
  idxZero : b = 0 → a.d.index = 0 ∧ a.prev = none
  idxLt : 0 < b → a.d.index < b
  wf : a.wfChain
  ratios : a.chainRatioOK items ll cur
  forcedMem : ∀ k, k < b → isForcedAt items k → k ∈ a.chainIndices

/-- Invariant of `minAdjustmentRatioAboveThreshold`: still `Infinity`, or a
finite candidate ratio strictly above the current threshold. -/
def MinAdjOK (items : List InputItem) (ll : LineLengths) (cur : ℚ)
    (m : JNum) : Prop :=
  m = .posInf ∨ ∃ q, m = .fin q ∧ q ∈ ratioSetQ items ll ∧ cur < q

/-- Invariant of the loop state at entry of iteration `b`. -/
structure StateOK (items : List InputItem) (ll : LineLengths) (cur : ℚ)
    (b : ℕ) (st : PassState) : Prop where
  ne : st.active ≠ []
  nodes : ∀ a ∈ st.active, NodeOK items ll cur b a
  sums : (st.sumWidth, st.sumStretch, st.sumShrink) = prefixSums items b
  minAdj : MinAdjOK items ll cur st.minAdjAbove
  forcedPrev : 0 < b → isForcedAt items (b - 1) →
    ∀ a ∈ st.active, a.d.index = b - 1

/-- What holds of the breakpoint list of a completed pass: it is the
reversed chain of a node whose chain is well formed, whose transitions all
respect the threshold or are fallbacks, which passes through every forced
break, and which ends at the final forced break when there is one. -/
def DoneOK (items : List InputItem) (ll : LineLengths) (cur : ℚ)
    (out : List ℕ) : Prop :=
  ∃ best : Node,
    out = best.chainIndices.reverse ∧
    best.wfChain ∧
    best.chainRatioOK items ll cur ∧
    (∀ k, isForcedAt items k → k ∈ best.chainIndices) ∧
    (0 < items.length → isForcedAt items (items.length - 1) →
      best.d.index = items.length - 1)

/-- Specification of a pass result, per shape. -/
def PassResultOK (items : List InputItem) (ll : LineLengths) (opts : Options)
    (cur : ℚ) : PassResult → Prop
  | .done out => DoneOK items ll cur out
  | .retry q => q ∈ ratioSetQ items ll ∧ cur < q ∧
      opts.maxAdjustmentRatio ≠ some cur
  | .err e => e ≠ .nullLastActive ∧
      (e = .maxAdjustmentExceeded → opts.maxAdjustmentRatio = some cur)

/-- The retry-recursion measure: twice the number of candidate ratios above
the current threshold, plus one while the hard cap differs from the
threshold. -/
def muMeasure (items : List InputItem) (ll : LineLengths) (opts : Options) : ℕ :=
  2 * ((ratioSetQ items ll).filter (fun r => currentMax opts < r)).card +
    (if opts.maxAdjustmentRatio = some (currentMax opts) then 0 else 1)

/-- An item `breakLines` rejects: negative width, or glue with negative
stretch or shrink. -/
def InputItem.invalid : InputItem → Prop
  | .box w => w < 0
  | .glue w stc shr => w < 0 ∨ shr < 0 ∨ stc < 0
  | .penalty w _ _ => w < 0

/-- Items are valid glue-wise: every glue has nonnegative stretch and
shrink (the data-model invariant of §3 of the specification). -/
def validGlue (items : List InputItem) : Prop :=
  ∀ it ∈ items, match it with
    | InputItem.glue _ stc shr => 0 ≤ stc ∧ 0 ≤ shr
    | _ => True

/-- Items are width-valid: every item has nonnegative width (the data-model
invariant of §3 of the specification; `breakLines` rejects violations). -/
def validWidth (items : List InputItem) : Prop :=
  ∀ it ∈ items, 0 ≤ it.width

/-- Sum of the `width` fields of a list of positioned items (JS addition). -/
def recsWidthSum : List PositionedItem → JNum
  | [] => .fin 0
  | r :: rest => r.width.add (recsWidthSum rest)

/-- Sum of the rendered widths `positionItems` emits on line `b` (with
`includeGlue` set this is exactly: box widths + glue gaps + the width of a
line-ending penalty). -/
def lineWidthSum (recs : List PositionedItem) (b : ℕ) : JNum :=
  recsWidthSum (recs.filter (fun r => r.line = b))

theorem foldl_pick_mem (f : Node → Node → Node)
    (hf : ∀ x y, f x y = x ∨ f x y = y) :
    ∀ (rest : List Node) (a : Node), rest.foldl f a ∈ a :: rest := by
  intro rest
  induction rest with
  | nil => intro a; simp
  | cons r rest ih =>
    intro a
    have hstep : List.foldl f a (r :: rest) = List.foldl f (f a r) rest := rfl
    have h := ih (f a r)
    rw [hstep]
    rcases List.mem_cons.mp h with h1 | h1
    · rw [h1]
      rcases hf a r with h2 | h2 <;> rw [h2]
      · exact List.mem_cons_self _ _
      · exact List.mem_cons_of_mem _ (List.mem_cons_self _ _)
    · exact List.mem_cons_of_mem _ (List.mem_cons_of_mem _ h1)

theorem pickBest_mem {l : List Node} {x : Node} (h : pickBest l = some x) :
    x ∈ l := by
  cases l with
  | nil => simp [pickBest] at h
  | cons a rest =>
    simp only [pickBest, Option.some.injEq] at h
    have := foldl_pick_mem
      (fun best f => if f.d.totalDemerits < best.d.totalDemerits then f else best)
      (by
        intro x y
        by_cases hc : y.d.totalDemerits < x.d.totalDemerits <;> simp [hc])
      rest a
    rw [h] at this
    exact this

theorem chainIndices_ne_nil (a : Node) : a.chainIndices ≠ [] := by
  cases a <;> simp [Node.chainIndices]

theorem chainIndices_head (a : Node) :
    a.chainIndices.head? = some a.d.index := by
  cases a <;> simp [Node.chainIndices, Node.d]

theorem mem_chainIndices_self (a : Node) : a.d.index ∈ a.chainIndices := by
  cases a <;> simp [Node.chainIndices, Node.d]

theorem wfChain_getLast (a : Node) (h : a.wfChain) :
    a.chainIndices.getLast? = some 0 := by
  induction a with
  | base d =>
    simp only [Node.wfChain] at h
    simp [Node.chainIndices, h]
  | cons d p ih =>
    simp only [Node.wfChain] at h
    obtain ⟨y, ys, hys⟩ := List.exists_cons_of_ne_nil (chainIndices_ne_nil p)
    rw [Node.chainIndices, hys, List.getLast?_cons_cons, ← hys, ih h.2]

theorem wfChain_revHead (a : Node) (h : a.wfChain) :
    a.chainIndices.reverse.head? = some 0 := by
  rw [List.head?_reverse]
  exact wfChain_getLast a h

theorem wfChain_revLast (a : Node) :
    a.chainIndices.reverse.getLast? = some a.d.index := by
  rw [List.getLast?_reverse]
  exact chainIndices_head a

theorem prev_none_chainIndices (p : Node) (hp : p.prev = none) :
    p.chainIndices = [p.d.index] := by
  cases p with
  | base d => simp [Node.chainIndices, Node.d]
  | cons d q => simp [Node.prev] at hp

theorem wfChain_chain (a : Node) (h : a.wfChain) :
    List.Chain' (· ≤ ·) a.chainIndices.reverse ∧
      List.Chain' (· < ·) a.chainIndices.reverse.tail := by
  induction a with
  | base d =>
    simp [Node.chainIndices]
  | cons d p ih =>
    simp only [Node.wfChain] at h
    obtain ⟨ihle, ihlt⟩ := ih h.2
    have hrev : (Node.cons d p).chainIndices.reverse =
        p.chainIndices.reverse ++ [d.index] := by
      simp [Node.chainIndices]
    have hne : p.chainIndices.reverse ≠ [] := by
      simp [chainIndices_ne_nil p]
    have hlink : p.d.index ≤ d.index := by
      rcases h.1 with h1 | h1
      · exact le_of_lt h1
      · rw [h1.1, h1.2.1]
    constructor
    · rw [hrev, List.chain'_append]
      refine ⟨ihle, List.chain'_singleton _, ?_⟩
      intro x hx y hy
      rw [wfChain_revLast p] at hx
      simp only [List.head?_cons, Option.mem_def, Option.some.injEq] at hx hy
      rw [← hx, ← hy] at *
      exact hlink
    · have htail : ((Node.cons d p).chainIndices.reverse).tail =
          p.chainIndices.reverse.tail ++ [d.index] := by
        rw [hrev]
        obtain ⟨y, ys, hys⟩ := List.exists_cons_of_ne_nil hne
        rw [hys]
        rfl
      rw [htail, List.chain'_append]
      refine ⟨ihlt, List.chain'_singleton _, ?_⟩
      intro x hx y hy
      simp only [List.head?_cons, Option.mem_def, Option.some.injEq] at hy
      rcases h.1 with h1 | h1
      · -- strict link: the last of the reversed tail is still `p.d.index`
        rcases hcase : p.chainIndices.reverse.tail with _ | ⟨z, zs⟩
        · rw [hcase] at hx; simp at hx
        · have : p.chainIndices.reverse.tail.getLast? =
              p.chainIndices.reverse.getLast? := by
            obtain ⟨y2, ys2, hys2⟩ := List.exists_cons_of_ne_nil hne
            rw [hys2, List.tail_cons] at hcase
            rw [hys2, hcase, List.tail_cons, List.getLast?_cons_cons]
          rw [this, wfChain_revLast p] at hx
          simp only [Option.mem_def, Option.some.injEq] at hx
          rw [← hx, ← hy] at *
          exact h1
      · -- fallback-at-0 link: the previous node is the sentinel, its
        -- reversed chain is a singleton and the tail is empty
        have := prev_none_chainIndices p h1.2.2
        rw [this] at hx
        simp at hx

theorem totals_zero_mem (items : List InputItem) : (0, 0, 0) ∈ totalsSet items :=
  Finset.mem_insert_self _ _

theorem prefix_mem_totalsSet (items : List InputItem) {b : ℕ}
    (hb : b < items.length) : prefixSums items b ∈ totalsSet items := by
  apply Finset.mem_insert_of_mem
  apply Finset.mem_union_left
  exact Finset.mem_image_of_mem _ (Finset.mem_range.mpr hb)

theorem nodeTot_mem_totalsSet (items : List InputItem) {b : ℕ}
    (hb : b < items.length) : nodeTotAt items b ∈ totalsSet items := by
  apply Finset.mem_insert_of_mem
  apply Finset.mem_union_right
  exact Finset.mem_image_of_mem _ (Finset.mem_range.mpr hb)

theorem ratAt_mem_ratioSetQ (items : List InputItem) (ll : LineLengths)
    {t : ℚ × ℚ × ℚ} {l b : ℕ} {q : ℚ}
    (ht : t ∈ totalsSet items) (hl : l ≤ items.length) (hb : b < items.length)
    (hq : ratAt items ll t l b = .fin q) : q ∈ ratioSetQ items ll := by
  apply Finset.mem_image.mpr
  refine ⟨(t, (l, b)), ?_, ?_⟩
  · apply Finset.mem_product.mpr
    refine ⟨ht, ?_⟩
    apply Finset.mem_product.mpr
    exact ⟨Finset.mem_range.mpr (Nat.lt_succ_of_le hl), Finset.mem_range.mpr hb⟩
  · simp [hq, jToQ]

theorem totalsSet_card_le (items : List InputItem) :
    (totalsSet items).card ≤ 2 * items.length + 1 := by
  unfold totalsSet
  calc (insert ((0 : ℚ), (0 : ℚ), (0 : ℚ))
      (((Finset.range items.length).image (prefixSums items)) ∪
        ((Finset.range items.length).image (nodeTotAt items)))).card
      ≤ (((Finset.range items.length).image (prefixSums items)) ∪
        ((Finset.range items.length).image (nodeTotAt items))).card + 1 :=
        Finset.card_insert_le _ _
    _ ≤ (((Finset.range items.length).image (prefixSums items)).card +
        ((Finset.range items.length).image (nodeTotAt items)).card) + 1 := by
        have := Finset.card_union_le
          (((Finset.range items.length).image (prefixSums items)))
          (((Finset.range items.length).image (nodeTotAt items)))
        omega
    _ ≤ (items.length + items.length) + 1 := by
        have h1 := Finset.card_image_le (s := Finset.range items.length)
          (f := prefixSums items)
        have h2 := Finset.card_image_le (s := Finset.range items.length)
          (f := nodeTotAt items)
        rw [Finset.card_range] at h1 h2
        omega
    _ ≤ 2 * items.length + 1 := by omega

theorem ratioSetQ_card_le (items : List InputItem) (ll : LineLengths) :
    (ratioSetQ items ll).card ≤
      (2 * items.length + 1) * (items.length + 1) * items.length := by
  unfold ratioSetQ
  calc (((totalsSet items) ×ˢ ((Finset.range (items.length + 1)) ×ˢ
        (Finset.range items.length))).image
      (fun x => jToQ (ratAt items ll x.1 x.2.1 x.2.2))).card
      ≤ ((totalsSet items) ×ˢ ((Finset.range (items.length + 1)) ×ˢ
        (Finset.range items.length))).card := Finset.card_image_le
    _ = (totalsSet items).card * ((items.length + 1) * items.length) := by
        rw [Finset.card_product, Finset.card_product, Finset.card_range,
          Finset.card_range]
    _ ≤ (2 * items.length + 1) * ((items.length + 1) * items.length) := by
        apply Nat.mul_le_mul_right
        exact totalsSet_card_le items
    _ = (2 * items.length + 1) * (items.length + 1) * items.length := by
        ring

theorem visitNodes_kept_subset (items : List InputItem) (ll : LineLengths)
    (opts : Options) (cur : ℚ) (b : ℕ) (item : InputItem)
    (restAll : List InputItem) (sW sSt sSh : ℚ) :
    ∀ (l : List Node) (m : JNum) (la : Option Node),
      ∀ a2 ∈ (visitNodes items ll opts cur b item restAll sW sSt sSh l m la).kept,
        a2 ∈ l := by
  intro l
  induction l with
  | nil => intro m la a2 h; simp [visitNodes] at h
  | cons a rest ih =>
    intro m la a2 h
    simp only [visitNodes] at h
    rcases List.mem_append.mp h with h1 | h1
    · by_cases hd : (adjRatio ll item sW sSt sSh a.d.totalWidth a.d.totalStretch
          a.d.totalShrink a.d.line).ltQ MIN_ADJUSTMENT_RATIO || isForcedBreak item
      · rw [if_pos hd] at h1
        simp at h1
      · rw [if_neg hd] at h1
        simp only [List.mem_singleton] at h1
        rw [h1]
        exact List.mem_cons_self _ _
    · exact List.mem_cons_of_mem _ (ih _ _ _ h1)

theorem adjRatio_eq_ratAt (items : List InputItem) (ll : LineLengths)
    {b : ℕ} {item : InputItem} {sW sSt sSh : ℚ}
    (hb : items.get? b = some item)
    (hsums : (sW, sSt, sSh) = prefixSums items b) (a : Node) :
    adjRatio ll item sW sSt sSh a.d.totalWidth a.d.totalStretch
      a.d.totalShrink a.d.line = ratAt items ll a.totals a.d.line b := by
  have h1 : sW = (prefixSums items b).1 := congrArg Prod.fst hsums
  have h2 : sSt = (prefixSums items b).2.1 := congrArg (fun x => x.2.1) hsums
  have h3 : sSh = (prefixSums items b).2.2 := congrArg (fun x => x.2.2) hsums
  simp only [ratAt, hb, Node.totals]
  rw [← h1, ← h2, ← h3]

theorem visitNodes_minAdj (items : List InputItem) (ll : LineLengths)
    (opts : Options) (cur : ℚ) (b : ℕ) (item : InputItem)
    (restAll : List InputItem) (sW sSt sSh : ℚ)
    (hb : items.get? b = some item)
    (hsums : (sW, sSt, sSh) = prefixSums items b) :
    ∀ (l : List Node) (m : JNum) (la : Option Node),
      (∀ a ∈ l, NodeOK items ll cur b a) →
      MinAdjOK items ll cur m →
      MinAdjOK items ll cur
        (visitNodes items ll opts cur b item restAll sW sSt sSh l m la).minAdj := by
  have hblt : b < items.length := List.get?_eq_some.mp hb |>.1
  intro l
  induction l with
  | nil => intro m la _ hm; simpa [visitNodes] using hm
  | cons a rest ih =>
    intro m la hnodes hm
    simp only [visitNodes]
    apply ih
    · intro a2 h2
      exact hnodes a2 (List.mem_cons_of_mem _ h2)
    · -- the one-step update of `minAdjustmentRatioAboveThreshold`
      have hna := hnodes a (List.mem_cons_self _ _)
      rw [adjRatio_eq_ratAt items ll hb hsums a]
      rcases hr : ratAt items ll a.totals a.d.line b with _ | _ | p | _
      · simpa [JNum.gtQ] using hm
      · simpa [JNum.gtQ] using hm
      · by_cases hgt : cur < p
        · have hpR : p ∈ ratioSetQ items ll :=
            ratAt_mem_ratioSetQ items ll hna.totalsMem
              (le_trans hna.lineLe (le_of_lt hblt)) hblt hr
          simp only [JNum.gtQ, decide_eq_true_eq, if_pos hgt]
          rcases hm with hm | ⟨q, hmq, hqR, hqgt⟩
          · rw [hm]
            exact Or.inr ⟨p, rfl, hpR, hgt⟩
          · rw [hmq]
            refine Or.inr ⟨min p q, rfl, ?_, lt_min hgt hqgt⟩
            rcases min_cases p q with ⟨he, _⟩ | ⟨he, _⟩ <;> rw [he]
            · exact hpR
            · exact hqR
        · simpa [JNum.gtQ, hgt] using hm
      · rcases hm with hm | ⟨q, hmq, hqR, hqgt⟩
        · rw [hm]
          simp only [JNum.gtQ, if_true]
          exact Or.inl rfl
        · rw [hmq]
          simp only [JNum.gtQ, if_true]
          exact Or.inr ⟨q, rfl, hqR, hqgt⟩

theorem visitNodes_lastActive_mem (items : List InputItem) (ll : LineLengths)
    (opts : Options) (cur : ℚ) (b : ℕ) (item : InputItem)
    (restAll : List InputItem) (sW sSt sSh : ℚ) :
    ∀ (l : List Node) (m : JNum) (la : Option Node) (la2 : Node),
      (visitNodes items ll opts cur b item restAll sW sSt sSh l m la).lastActive
        = some la2 →
      la2 ∈ l ∨ la = some la2 := by
  intro l
  induction l with
  | nil => intro m la la2 h; simp only [visitNodes] at h; exact Or.inr h
  | cons a rest ih =>
    intro m la la2 h
    simp only [visitNodes] at h
    rcases ih _ _ _ h with h1 | h1
    · exact Or.inl (List.mem_cons_of_mem _ h1)
    · by_cases hd : (adjRatio ll item sW sSt sSh a.d.totalWidth a.d.totalStretch
          a.d.totalShrink a.d.line).ltQ MIN_ADJUSTMENT_RATIO || isForcedBreak item
      · rw [if_pos hd] at h1
        have : a = la2 := Option.some_injective _ h1
        exact Or.inl (by rw [← this]; exact List.mem_cons_self _ _)
      · rw [if_neg hd] at h1
        exact Or.inr h1

theorem visitNodes_lastActive_some (items : List InputItem) (ll : LineLengths)
    (opts : Options) (cur : ℚ) (b : ℕ) (item : InputItem)
    (restAll : List InputItem) (sW sSt sSh : ℚ) :
    ∀ (l : List Node) (m : JNum) (x : Node),
      (visitNodes items ll opts cur b item restAll sW sSt sSh l m (some x)).lastActive
        ≠ none := by
  intro l
  induction l with
  | nil => intro m x; simp [visitNodes]
  | cons a rest ih =>
    intro m x
    simp only [visitNodes]
    by_cases hd : (adjRatio ll item sW sSt sSh a.d.totalWidth a.d.totalStretch
        a.d.totalShrink a.d.line).ltQ MIN_ADJUSTMENT_RATIO || isForcedBreak item
    · simp only [if_pos hd]
      exact ih _ _
    · simp only [if_neg hd]
      exact ih _ _

theorem visitNodes_none_kept (items : List InputItem) (ll : LineLengths)
    (opts : Options) (cur : ℚ) (b : ℕ) (item : InputItem)
    (restAll : List InputItem) (sW sSt sSh : ℚ) :
    ∀ (l : List Node) (m : JNum),
      (visitNodes items ll opts cur b item restAll sW sSt sSh l m none).lastActive
        = none →
      (visitNodes items ll opts cur b item restAll sW sSt sSh l m none).kept = l := by
  intro l
  induction l with
  | nil => intro m _; simp [visitNodes]
  | cons a rest ih =>
    intro m h
    simp only [visitNodes] at h ⊢
    by_cases hd : (adjRatio ll item sW sSt sSh a.d.totalWidth a.d.totalStretch
        a.d.totalShrink a.d.line).ltQ MIN_ADJUSTMENT_RATIO || isForcedBreak item
    · simp only [if_pos hd] at h
      exact absurd h (visitNodes_lastActive_some items ll opts cur b item restAll
        sW sSt sSh rest _ a)
    · simp only [if_neg hd] at h ⊢
      rw [ih _ h]
      rfl

theorem visitNodes_forced_kept (items : List InputItem) (ll : LineLengths)
    (opts : Options) (cur : ℚ) (b : ℕ) (item : InputItem)
    (restAll : List InputItem) (sW sSt sSh : ℚ)
    (hforced : isForcedBreak item = true) :
    ∀ (l : List Node) (m : JNum) (la : Option Node),
      (visitNodes items ll opts cur b item restAll sW sSt sSh l m la).kept = [] := by
  intro l
  induction l with
  | nil => intro m la; simp [visitNodes]
  | cons a rest ih =>
    intro m la
    simp only [visitNodes, hforced, Bool.or_true, if_pos, List.nil_append]
    exact ih _ _

theorem visitNodes_feasible (items : List InputItem) (ll : LineLengths)
    (opts : Options) (cur : ℚ) (b : ℕ) (item : InputItem)
    (restAll : List InputItem) (sW sSt sSh : ℚ) :
    ∀ (l : List Node) (m : JNum) (la : Option Node),
      ∀ f ∈ (visitNodes items ll opts cur b item restAll sW sSt sSh l m la).feasible,
        ∃ a, a ∈ l ∧ ∃ q,
          adjRatio ll item sW sSt sSh a.d.totalWidth a.d.totalStretch
            a.d.totalShrink a.d.line = .fin q ∧
          MIN_ADJUSTMENT_RATIO ≤ q ∧ q ≤ cur ∧
          f = mkFeasible items opts b item restAll sW sSt sSh a q := by
  intro l
  induction l with
  | nil => intro m la f h; simp [visitNodes] at h
  | cons a rest ih =>
    intro m la f h
    simp only [visitNodes] at h
    rcases List.mem_append.mp h with h1 | h1
    · rcases hr : adjRatio ll item sW sSt sSh a.d.totalWidth a.d.totalStretch
          a.d.totalShrink a.d.line with _ | _ | p | _ <;> simp only [hr] at h1
      · simp at h1
      · simp at h1
      · by_cases hbounds : MIN_ADJUSTMENT_RATIO ≤ p ∧ p ≤ cur
        · simp only [if_pos hbounds, List.mem_singleton] at h1
          exact ⟨a, List.mem_cons_self _ _, p, hr, hbounds.1, hbounds.2, h1⟩
        · simp only [if_neg hbounds] at h1
          simp at h1
      · simp at h1
    · obtain ⟨a2, ha2, hrest⟩ := ih _ _ f h1
      exact ⟨a2, List.mem_cons_of_mem _ ha2, hrest⟩

theorem prefixSums_succ_box (items : List InputItem) {b : ℕ} {w sW sSt sSh : ℚ}
    (hb : items.get? b = some (.box w))
    (hsums : (sW, sSt, sSh) = prefixSums items b) :
    (sW + w, sSt, sSh) = prefixSums items (b + 1) := by
  simp only [prefixSums, ← hsums, hb]

theorem prefixSums_succ_glue (items : List InputItem)
    {b : ℕ} {w stc shr sW sSt sSh : ℚ}
    (hb : items.get? b = some (.glue w stc shr))
    (hsums : (sW, sSt, sSh) = prefixSums items b) :
    (sW + w, sSt + stc, sSh + shr) = prefixSums items (b + 1) := by
  simp only [prefixSums, ← hsums, hb]

theorem prefixSums_succ_penalty (items : List InputItem)
    {b : ℕ} {w c : ℚ} {fl : Bool} {sW sSt sSh : ℚ}
    (hb : items.get? b = some (.penalty w c fl))
    (hsums : (sW, sSt, sSh) = prefixSums items b) :
    (sW, sSt, sSh) = prefixSums items (b + 1) := by
  simp only [prefixSums, ← hsums, hb]

theorem isForcedAt_iff (items : List InputItem) {b : ℕ} {item : InputItem}
    (hb : items.get? b = some item) :
    isForcedAt items b ↔ isForcedBreak item = true := by
  simp only [isForcedAt, hb]

theorem NodeOK_mono (items : List InputItem) (ll : LineLengths) (cur : ℚ)
    {b : ℕ} {item : InputItem} {a : Node}
    (hb : items.get? b = some item) (hnf : isForcedBreak item = false)
    (h : NodeOK items ll cur b a) : NodeOK items ll cur (b + 1) a where
  totalsMem := h.totalsMem
  lineLe := Nat.le_succ_of_le h.lineLe
  idxZero := fun h0 => absurd h0 (Nat.succ_ne_zero b)
  idxLt := by
    intro _
    rcases Nat.eq_zero_or_pos b with hb0 | hb0
    · have := (h.idxZero hb0).1
      omega
    · have := h.idxLt hb0
      omega
  wf := h.wf
  ratios := h.ratios
  forcedMem := by
    intro k hk hf
    rcases Nat.lt_succ_iff_lt_or_eq.mp hk with hk2 | hk2
    · exact h.forcedMem k hk2 hf
    · rw [hk2] at hf
      rw [isForcedAt_iff items hb] at hf
      rw [hf] at hnf
      exact absurd hnf (by simp)

theorem mkFeasible_eq_cons (items : List InputItem) (opts : Options) (b : ℕ)
    (item : InputItem) (restAll : List InputItem) (sW sSt sSh : ℚ)
    (a : Node) (q : ℚ) :
    mkFeasible items opts b item restAll sW sSt sSh a q =
      .cons (mkFeasible items opts b item restAll sW sSt sSh a q).d a := rfl

theorem mkFeasible_index (items : List InputItem) (opts : Options) (b : ℕ)
    (item : InputItem) (restAll : List InputItem) (sW sSt sSh : ℚ)
    (a : Node) (q : ℚ) :
    (mkFeasible items opts b item restAll sW sSt sSh a q).d.index = b := rfl

theorem mkFeasible_line (items : List InputItem) (opts : Options) (b : ℕ)
    (item : InputItem) (restAll : List InputItem) (sW sSt sSh : ℚ)
    (a : Node) (q : ℚ) :
    (mkFeasible items opts b item restAll sW sSt sSh a q).d.line = a.d.line + 1 := rfl

theorem mkFeasible_totals (items : List InputItem) (opts : Options) {b : ℕ}
    (item : InputItem) {restAll : List InputItem} {sW sSt sSh : ℚ}
    (a : Node) (q : ℚ)
    (hrest : items.drop b = restAll)
    (hsums : (sW, sSt, sSh) = prefixSums items b) :
    (mkFeasible items opts b item restAll sW sSt sSh a q).totals =
      nodeTotAt items b := by
  have h1 : sW = (prefixSums items b).1 := congrArg Prod.fst hsums
  have h2 : sSt = (prefixSums items b).2.1 := congrArg (fun x => x.2.1) hsums
  have h3 : sSh = (prefixSums items b).2.2 := congrArg (fun x => x.2.2) hsums
  show (sW + (toNextBox restAll).1, sSt + (toNextBox restAll).2.1,
    sSh + (toNextBox restAll).2.2) = nodeTotAt items b
  rw [nodeTotAt, ← hrest, h1, h2, h3]

theorem mkFallback_eq_cons (b : ℕ) (sW sSt sSh : ℚ) (la : Node) :
    mkFallback b sW sSt sSh la = .cons (mkFallback b sW sSt sSh la).d la := rfl

theorem wfChain_cons (d : NodeData) (p : Node) :
    (Node.cons d p).wfChain ↔
      (p.d.index < d.index ∨ (p.d.index = 0 ∧ d.index = 0 ∧ p.prev = none)) ∧
        p.wfChain := Iff.rfl

theorem chainRatioOK_cons (items : List InputItem) (ll : LineLengths) (cur : ℚ)
    (d : NodeData) (p : Node) :
    (Node.cons d p).chainRatioOK items ll cur ↔
      ((∃ q, ratAt items ll p.totals p.d.line d.index = .fin q ∧
          MIN_ADJUSTMENT_RATIO ≤ q ∧ q ≤ cur) ∨
        ((d.totalWidth, d.totalStretch, d.totalShrink) = prefixSums items d.index ∧
          d.fitness = 1 ∧ d.totalDemerits = p.d.totalDemerits + 1000)) ∧
        p.chainRatioOK items ll cur := Iff.rfl

theorem chainIndices_cons (d : NodeData) (p : Node) :
    (Node.cons d p).chainIndices = d.index :: p.chainIndices := rfl

theorem mkFallback_totals (b : ℕ) (sW sSt sSh : ℚ) (la : Node) :
    (mkFallback b sW sSt sSh la).totals = (sW, sSt, sSh) := rfl

theorem mkFallback_index (b : ℕ) (sW sSt sSh : ℚ) (la : Node) :
    (mkFallback b sW sSt sSh la).d.index = b := rfl

theorem mkFeasible_nodeOK (items : List InputItem) (ll : LineLengths)
    (opts : Options) (cur : ℚ) {b : ℕ} {item : InputItem}
    {restAll : List InputItem} {sW sSt sSh : ℚ} {a : Node} {q : ℚ}
    (hb : items.get? b = some item)
    (hrest : items.drop b = restAll)
    (hsums : (sW, sSt, sSh) = prefixSums items b)
    (hna : NodeOK items ll cur b a)
    (hr : adjRatio ll item sW sSt sSh a.d.totalWidth a.d.totalStretch
      a.d.totalShrink a.d.line = .fin q)
    (hq1 : MIN_ADJUSTMENT_RATIO ≤ q) (hq2 : q ≤ cur) :
    NodeOK items ll cur (b + 1)
      (mkFeasible items opts b item restAll sW sSt sSh a q) := by
  have hblt : b < items.length := (List.get?_eq_some.mp hb).1
  have hlink : a.d.index < (mkFeasible items opts b item restAll sW sSt sSh a q).d.index ∨
      (a.d.index = 0 ∧
        (mkFeasible items opts b item restAll sW sSt sSh a q).d.index = 0 ∧
        a.prev = none) := by
    rw [mkFeasible_index]
    rcases Nat.eq_zero_or_pos b with hb0 | hb0
    · obtain ⟨hi0, hp0⟩ := hna.idxZero hb0
      exact Or.inr ⟨hi0, hb0, hp0⟩
    · exact Or.inl (hna.idxLt hb0)
  constructor
  · rw [mkFeasible_totals items opts item a q hrest hsums]
    exact nodeTot_mem_totalsSet items hblt
  · rw [mkFeasible_line]
    exact Nat.succ_le_succ hna.lineLe
  · intro h0
    exact absurd h0 (Nat.succ_ne_zero b)
  · intro _
    rw [mkFeasible_index]
    omega
  · rw [mkFeasible_eq_cons, wfChain_cons]
    exact ⟨hlink, hna.wf⟩
  · rw [mkFeasible_eq_cons, chainRatioOK_cons]
    refine ⟨Or.inl ⟨q, ?_, hq1, hq2⟩, hna.ratios⟩
    have : (mkFeasible items opts b item restAll sW sSt sSh a q).d.index = b :=
      mkFeasible_index _ _ _ _ _ _ _ _ _ _
    rw [this, ← adjRatio_eq_ratAt items ll hb hsums a]
    exact hr
  · intro k hk hf
    rw [mkFeasible_eq_cons, chainIndices_cons, mkFeasible_index]
    rcases Nat.lt_succ_iff_lt_or_eq.mp hk with hk2 | hk2
    · exact List.mem_cons_of_mem _ (hna.forcedMem k hk2 hf)
    · rw [hk2]
      exact List.mem_cons_self _ _

theorem mkFallback_nodeOK (items : List InputItem) (ll : LineLengths)
    (cur : ℚ) {b : ℕ} {sW sSt sSh : ℚ} {la : Node}
    (hblt : b < items.length)
    (hsums : (sW, sSt, sSh) = prefixSums items b)
    (hla : NodeOK items ll cur b la) :
    NodeOK items ll cur (b + 1) (mkFallback b sW sSt sSh la) := by
  have hlink : la.d.index < (mkFallback b sW sSt sSh la).d.index ∨
      (la.d.index = 0 ∧ (mkFallback b sW sSt sSh la).d.index = 0 ∧
        la.prev = none) := by
    rw [mkFallback_index]
    rcases Nat.eq_zero_or_pos b with hb0 | hb0
    · obtain ⟨hi0, hp0⟩ := hla.idxZero hb0
      exact Or.inr ⟨hi0, hb0, hp0⟩
    · exact Or.inl (hla.idxLt hb0)
  constructor
  · rw [mkFallback_totals, hsums]
    exact prefix_mem_totalsSet items hblt
  · show la.d.line + 1 ≤ b + 1
    exact Nat.succ_le_succ hla.lineLe
  · intro h0
    exact absurd h0 (Nat.succ_ne_zero b)
  · intro _
    rw [mkFallback_index]
    omega
  · rw [mkFallback_eq_cons, wfChain_cons]
    exact ⟨hlink, hla.wf⟩
  · rw [mkFallback_eq_cons, chainRatioOK_cons]
    refine ⟨Or.inr ⟨?_, rfl, rfl⟩, hla.ratios⟩
    show (sW, sSt, sSh) = prefixSums items (mkFallback b sW sSt sSh la).d.index
    rw [mkFallback_index]
    exact hsums
  · intro k hk hf
    rw [mkFallback_eq_cons, chainIndices_cons, mkFallback_index]
    rcases Nat.lt_succ_iff_lt_or_eq.mp hk with hk2 | hk2
    · exact List.mem_cons_of_mem _ (hla.forcedMem k hk2 hf)
    · rw [hk2]
      exact List.mem_cons_self _ _

theorem foldGlue_active (st : PassState) (item : InputItem) :
    (foldGlue st item).active = st.active := by
  rcases item <;> rfl

theorem foldGlue_minAdj (st : PassState) (item : InputItem) :
    (foldGlue st item).minAdjAbove = st.minAdjAbove := by
  rcases item <;> rfl

theorem foldGlue_sums (items : List InputItem) {b : ℕ} {item : InputItem}
    (st : PassState)
    (hb : items.get? b = some item) (hnotbox : ∀ w, item ≠ .box w)
    (hsums : (st.sumWidth, st.sumStretch, st.sumShrink) = prefixSums items b) :
    ((foldGlue st item).sumWidth, (foldGlue st item).sumStretch,
      (foldGlue st item).sumShrink) = prefixSums items (b + 1) := by
  rcases item with w | ⟨w, stc, shr⟩ | ⟨w, c, fl⟩
  · exact absurd rfl (hnotbox w)
  · simp only [foldGlue]
    exact prefixSums_succ_glue items hb hsums
  · simp only [foldGlue]
    exact prefixSums_succ_penalty items hb hsums

theorem processBreak_spec (items : List InputItem) (ll : LineLengths)
    (opts : Options) (cur : ℚ) (b : ℕ) (item : InputItem)
    (rest' : List InputItem) (st : PassState)
    (hok : StateOK items ll cur b st)
    (hb : items.get? b = some item)
    (hrest : items.drop b = item :: rest')
    (hnotbox : ∀ w, item ≠ .box w) :
    (∀ st2, processBreak items ll opts cur b item (item :: rest') st = .cont st2 →
      StateOK items ll cur (b + 1) st2) ∧
    (∀ q, processBreak items ll opts cur b item (item :: rest') st = .retry q →
      q ∈ ratioSetQ items ll ∧ cur < q ∧ opts.maxAdjustmentRatio ≠ some cur) ∧
    (∀ e, processBreak items ll opts cur b item (item :: rest') st = .err e →
      e ≠ .nullLastActive ∧
        (e = .maxAdjustmentExceeded → opts.maxAdjustmentRatio = some cur)) := by
  have hblt : b < items.length := (List.get?_eq_some.mp hb).1
  -- abbreviations
  set v := visitNodes items ll opts cur b item (item :: rest')
    st.sumWidth st.sumStretch st.sumShrink st.active st.minAdjAbove none with hv
  set newActive := v.kept ++
    (match pickBest v.feasible with
     | some bn => [bn]
     | none => []) with hnadef
  have hminadj : MinAdjOK items ll cur v.minAdj := by
    rw [hv]
    exact visitNodes_minAdj items ll opts cur b item (item :: rest')
      st.sumWidth st.sumStretch st.sumShrink hb hok.sums
      st.active st.minAdjAbove none hok.nodes hok.minAdj
  have hproc : processBreak items ll opts cur b item (item :: rest') st =
      if newActive = [] then
        match v.minAdj with
        | .fin q =>
          if opts.maxAdjustmentRatio = some cur then .err .maxAdjustmentExceeded
          else .retry q
        | _ =>
          match v.lastActive with
          | some la =>
            .cont (foldGlue
              { st with
                active := [mkFallback b st.sumWidth st.sumStretch st.sumShrink la]
                minAdjAbove := v.minAdj } item)
          | none => .err .nullLastActive
      else
        .cont (foldGlue { st with active := newActive, minAdjAbove := v.minAdj }
          item) := rfl
  -- nodes of the new active list satisfy the invariant at b + 1
  have hnodesNA : ∀ a2 ∈ newActive, NodeOK items ll cur (b + 1) a2 := by
    intro a2 ha2
    rw [hnadef] at ha2
    rcases List.mem_append.mp ha2 with h1 | h1
    · -- a surviving node: it was active, and the item cannot be a forced break
      have hmem : a2 ∈ st.active := by
        rw [hv] at h1
        exact visitNodes_kept_subset items ll opts cur b item (item :: rest')
          st.sumWidth st.sumStretch st.sumShrink st.active st.minAdjAbove none a2 h1
      by_cases hforced : isForcedBreak item = true
      · exfalso
        rw [hv] at h1
        rw [visitNodes_forced_kept items ll opts cur b item (item :: rest')
          st.sumWidth st.sumStretch st.sumShrink hforced st.active
          st.minAdjAbove none] at h1
        exact absurd h1 (List.not_mem_nil a2)
      · exact NodeOK_mono items ll cur hb (Bool.not_eq_true _ ▸ hforced)
          (hok.nodes a2 hmem)
    · -- the best feasible node
      rcases hpick : pickBest v.feasible with _ | bn
      · rw [hpick] at h1; simp at h1
      · rw [hpick] at h1
        simp only [List.mem_singleton] at h1
        have hbn : bn ∈ v.feasible := pickBest_mem hpick
        rw [hv] at hbn
        obtain ⟨a0, ha0, q, hr, hq1, hq2, heq⟩ :=
          visitNodes_feasible items ll opts cur b item (item :: rest')
            st.sumWidth st.sumStretch st.sumShrink st.active st.minAdjAbove none
            bn hbn
        rw [h1, heq]
        exact mkFeasible_nodeOK items ll opts cur hb hrest hok.sums
          (hok.nodes a0 ha0) hr hq1 hq2
  -- every node of the new active list breaks at `b`
  have hidxNA : isForcedBreak item = true → ∀ a2 ∈ newActive, a2.d.index = b := by
    intro hforced a2 ha2
    rw [hnadef] at ha2
    rcases List.mem_append.mp ha2 with h1 | h1
    · rw [hv] at h1
      rw [visitNodes_forced_kept items ll opts cur b item (item :: rest')
        st.sumWidth st.sumStretch st.sumShrink hforced st.active
        st.minAdjAbove none] at h1
      exact absurd h1 (List.not_mem_nil a2)
    · rcases hpick : pickBest v.feasible with _ | bn
      · rw [hpick] at h1; simp at h1
      · rw [hpick] at h1
        simp only [List.mem_singleton] at h1
        have hbn : bn ∈ v.feasible := pickBest_mem hpick
        rw [hv] at hbn
        obtain ⟨a0, ha0, q, hr, hq1, hq2, heq⟩ :=
          visitNodes_feasible items ll opts cur b item (item :: rest')
            st.sumWidth st.sumStretch st.sumShrink st.active st.minAdjAbove none
            bn hbn
        rw [h1, heq]
        exact mkFeasible_index _ _ _ _ _ _ _ _ _ _
  refine ⟨?_, ?_, ?_⟩
  · -- continue case
    intro st2 hx
    rw [hproc] at hx
    by_cases hempty : newActive = []
    · rw [if_pos hempty] at hx
      rcases hm : v.minAdj with _ | _ | q | _ <;> rw [hm] at hx
      · -- NaN: fallback branch
        rcases hla : v.lastActive with _ | la <;> rw [hla] at hx
        · exact absurd hx (by simp)
        · -- fallback node injected; but NaN contradicts the minAdj invariant
          exfalso
          rcases hminadj with h2 | ⟨q2, h2, _⟩ <;> rw [hm] at h2 <;> exact absurd h2 (by simp)
      · -- -Infinity: impossible by the minAdj invariant
        exfalso
        rcases hminadj with h2 | ⟨q2, h2, _⟩ <;> rw [hm] at h2 <;> exact absurd h2 (by simp)
      · -- finite: retry or throw, never continue
        by_cases hcap : opts.maxAdjustmentRatio = some cur
        · simp only [if_pos hcap] at hx
          exact absurd hx (by simp)
        · simp only [if_neg hcap] at hx
          exact absurd hx (by simp)
      · -- Infinity: the fallback branch
        rcases hla : v.lastActive with _ | la <;> rw [hla] at hx
        · exact absurd hx (by simp)
        · have hla2 : la ∈ st.active := by
            rw [hv] at hla
            rcases visitNodes_lastActive_mem items ll opts cur b item (item :: rest')
              st.sumWidth st.sumStretch st.sumShrink st.active st.minAdjAbove none
              la hla with h2 | h2
            · exact h2
            · exact absurd h2 (by simp)
          have hst2 : st2 = foldGlue
              { st with
                active := [mkFallback b st.sumWidth st.sumStretch st.sumShrink la]
                minAdjAbove := v.minAdj } item := by
            injection hx with hx2
            rw [← hx2, hm]
          rw [hst2]
          constructor
          · rw [foldGlue_active]
            simp
          · rw [foldGlue_active]
            intro a2 ha2
            simp only [List.mem_singleton] at ha2
            rw [ha2]
            exact mkFallback_nodeOK items ll cur hblt hok.sums (hok.nodes la hla2)
          · exact foldGlue_sums items _ hb hnotbox hok.sums
          · rw [foldGlue_minAdj]
            exact hminadj
          · intro _ hf a2 ha2
            rw [foldGlue_active] at ha2
            simp only [List.mem_singleton] at ha2
            rw [ha2, mkFallback_index]
            omega
    · rw [if_neg hempty] at hx
      have hst2 : st2 = foldGlue
          { st with active := newActive, minAdjAbove := v.minAdj } item := by
        cases hx
        rfl
      rw [hst2]
      constructor
      · rw [foldGlue_active]
        exact hempty
      · rw [foldGlue_active]
        exact hnodesNA
      · exact foldGlue_sums items _ hb hnotbox hok.sums
      · rw [foldGlue_minAdj]
        exact hminadj
      · intro _ hf a2 ha2
        rw [foldGlue_active] at ha2
        have hforced : isForcedBreak item = true := by
          have : isForcedAt items b := by
            simpa using hf
          exact (isForcedAt_iff items hb).mp this
        have := hidxNA hforced a2 ha2
        omega
  · -- retry case
    intro q hx
    rw [hproc] at hx
    by_cases hempty : newActive = []
    · rw [if_pos hempty] at hx
      rcases hm : v.minAdj with _ | _ | q2 | _ <;> rw [hm] at hx
      · rcases hla : v.lastActive with _ | la <;> rw [hla] at hx <;>
          exact absurd hx (by simp)
      · rcases hminadj with h2 | ⟨q3, h2, _⟩ <;> rw [hm] at h2 <;>
          exact absurd h2 (by simp)
      · by_cases hcap : opts.maxAdjustmentRatio = some cur
        · simp only [if_pos hcap] at hx
          exact absurd hx (by simp)
        · simp only [if_neg hcap, StepResult.retry.injEq] at hx
          rcases hminadj with h2 | ⟨q3, h2, hq3R, hq3gt⟩
          · rw [hm] at h2; exact absurd h2 (by simp)
          · rw [hm] at h2
            have h4 : q3 = q2 := by
              have := h2.symm
              simpa using this
            rw [← hx, ← h4]
            exact ⟨hq3R, hq3gt, hcap⟩
      · rcases hla : v.lastActive with _ | la <;> rw [hla] at hx <;>
          exact absurd hx (by simp)
    · rw [if_neg hempty] at hx
      exact absurd hx (by simp)
  · -- error case
    intro e hx
    rw [hproc] at hx
    by_cases hempty : newActive = []
    · rw [if_pos hempty] at hx
      have hkeptnil : v.kept = [] := by
        rw [hnadef] at hempty
        exact (List.append_eq_nil.mp hempty).1
      rcases hm : v.minAdj with _ | _ | q2 | _ <;> rw [hm] at hx
      · rcases hla : v.lastActive with _ | la <;> rw [hla] at hx
        · -- null lastActive: impossible, since nothing was deleted yet the
          -- active list emptied
          exfalso
          have := visitNodes_none_kept items ll opts cur b item (item :: rest')
            st.sumWidth st.sumStretch st.sumShrink st.active st.minAdjAbove
            (by rw [← hv]; exact hla)
          rw [← hv] at this
          rw [hkeptnil] at this
          exact hok.ne this.symm
        · exact absurd hx (by simp)
      · rcases hminadj with h2 | ⟨q3, h2, _⟩ <;> rw [hm] at h2 <;>
          exact absurd h2 (by simp)
      · by_cases hcap : opts.maxAdjustmentRatio = some cur
        · simp only [if_pos hcap, StepResult.err.injEq] at hx
          rw [← hx]
          exact ⟨by simp, fun _ => hcap⟩
        · simp only [if_neg hcap] at hx
          exact absurd hx (by simp)
      · rcases hla : v.lastActive with _ | la <;> rw [hla] at hx
        · exfalso
          have := visitNodes_none_kept items ll opts cur b item (item :: rest')
            st.sumWidth st.sumStretch st.sumShrink st.active st.minAdjAbove
            (by rw [← hv]; exact hla)
          rw [← hv] at this
          rw [hkeptnil] at this
          exact hok.ne this.symm
        · exact absurd hx (by simp)
    · rw [if_neg hempty] at hx
      exact absurd hx (by simp)

theorem StateOK_nobreak (items : List InputItem) (ll : LineLengths) (cur : ℚ)
    {b : ℕ} {item : InputItem} {st st2 : PassState}
    (hok : StateOK items ll cur b st)
    (hb : items.get? b = some item)
    (hnf : isForcedBreak item = false)
    (hactive : st2.active = st.active)
    (hminadj : st2.minAdjAbove = st.minAdjAbove)
    (hsums2 : (st2.sumWidth, st2.sumStretch, st2.sumShrink) =
      prefixSums items (b + 1)) :
    StateOK items ll cur (b + 1) st2 where
  ne := by rw [hactive]; exact hok.ne
  nodes := by
    rw [hactive]
    intro a2 ha2
    exact NodeOK_mono items ll cur hb hnf (hok.nodes a2 ha2)
  sums := hsums2
  minAdj := by rw [hminadj]; exact hok.minAdj
  forcedPrev := by
    intro _ hf
    exfalso
    have : isForcedAt items b := by simpa using hf
    rw [isForcedAt_iff items hb] at this
    rw [this] at hnf
    exact absurd hnf (by simp)

theorem blStep_spec (items : List InputItem) (ll : LineLengths)
    (opts : Options) (cur : ℚ) (b : ℕ) (item : InputItem)
    (rest' : List InputItem) (st : PassState)
    (hok : StateOK items ll cur b st)
    (hb : items.get? b = some item)
    (hrest : items.drop b = item :: rest') :
    (∀ st2, blStep items ll opts cur b item (item :: rest') st = .cont st2 →
      StateOK items ll cur (b + 1) st2) ∧
    (∀ q, blStep items ll opts cur b item (item :: rest') st = .retry q →
      q ∈ ratioSetQ items ll ∧ cur < q ∧ opts.maxAdjustmentRatio ≠ some cur) ∧
    (∀ e, blStep items ll opts cur b item (item :: rest') st = .err e →
      e ≠ .nullLastActive ∧
        (e = .maxAdjustmentExceeded → opts.maxAdjustmentRatio = some cur)) := by
  rcases item with w | ⟨w, stc, shr⟩ | ⟨w, c, fl⟩
  · -- box
    by_cases hw : InputItem.width (.box w) < 0
    · refine ⟨?_, ?_, ?_⟩ <;> intro x hx <;>
        simp only [blStep, if_pos hw] at hx
      · exact absurd hx (by simp)
      · exact absurd hx (by simp)
      · have : BreakError.negativeWidth b = x := by simpa using hx
        rw [← this]
        exact ⟨by simp, by simp⟩
    · refine ⟨?_, ?_, ?_⟩ <;> intro x hx <;>
        simp only [blStep, if_neg hw] at hx
      · have hx2 : ({ st with sumWidth := st.sumWidth + w } : PassState) = x := by
          simpa using hx
        rw [← hx2]
        refine StateOK_nobreak items ll cur hok hb rfl rfl rfl ?_
        exact prefixSums_succ_box items hb hok.sums
      · exact absurd hx (by simp)
      · exact absurd hx (by simp)
  · -- glue
    by_cases hw : InputItem.width (.glue w stc shr) < 0
    · refine ⟨?_, ?_, ?_⟩ <;> intro x hx <;>
        simp only [blStep, if_pos hw] at hx
      · exact absurd hx (by simp)
      · exact absurd hx (by simp)
      · have : BreakError.negativeWidth b = x := by simpa using hx
        rw [← this]
        exact ⟨by simp, by simp⟩
    · by_cases hneg : shr < 0 ∨ stc < 0
      · refine ⟨?_, ?_, ?_⟩ <;> intro x hx <;>
          simp only [blStep, if_neg hw, if_pos hneg] at hx
        · exact absurd hx (by simp)
        · exact absurd hx (by simp)
        · have : BreakError.negativeStretchShrink b = x := by simpa using hx
          rw [← this]
          exact ⟨by simp, by simp⟩
      · by_cases hcb : 0 < b ∧ isBoxOpt (items.get? (b - 1))
        · have hspec := processBreak_spec items ll opts cur b (.glue w stc shr)
            rest' st hok hb hrest (by intro w2 h; exact absurd h (by simp))
          refine ⟨?_, ?_, ?_⟩ <;> intro x hx <;>
            simp only [blStep, if_neg hw, if_neg hneg, if_pos hcb] at hx
          · exact hspec.1 x hx
          · exact hspec.2.1 x hx
          · exact hspec.2.2 x hx
        · refine ⟨?_, ?_, ?_⟩ <;> intro x hx <;>
            simp only [blStep, if_neg hw, if_neg hneg, if_neg hcb] at hx
          · have hx2 : ({ st with
                sumWidth := st.sumWidth + w
                sumShrink := st.sumShrink + shr
                sumStretch := st.sumStretch + stc } : PassState) = x := by
              simpa using hx
            rw [← hx2]
            refine StateOK_nobreak items ll cur hok hb rfl rfl rfl ?_
            exact prefixSums_succ_glue items hb hok.sums
          · exact absurd hx (by simp)
          · exact absurd hx (by simp)
  · -- penalty
    by_cases hw : InputItem.width (.penalty w c fl) < 0
    · refine ⟨?_, ?_, ?_⟩ <;> intro x hx <;>
        simp only [blStep, if_pos hw] at hx
      · exact absurd hx (by simp)
      · exact absurd hx (by simp)
      · have : BreakError.negativeWidth b = x := by simpa using hx
        rw [← this]
        exact ⟨by simp, by simp⟩
    · by_cases hc : c < MAX_COST
      · have hspec := processBreak_spec items ll opts cur b (.penalty w c fl)
          rest' st hok hb hrest (by intro w2 h; exact absurd h (by simp))
        refine ⟨?_, ?_, ?_⟩ <;> intro x hx <;>
          simp only [blStep, if_neg hw, if_pos hc] at hx
        · exact hspec.1 x hx
        · exact hspec.2.1 x hx
        · exact hspec.2.2 x hx
      · refine ⟨?_, ?_, ?_⟩ <;> intro x hx <;>
          simp only [blStep, if_neg hw, if_neg hc] at hx
        · have hx2 : st = x := by simpa using hx
          rw [← hx2]
          refine StateOK_nobreak items ll cur hok hb ?_ rfl rfl ?_
          · -- a penalty with cost >= MAX_COST is not a forced break
            simp only [isForcedBreak]
            rw [MAX_COST] at hc
            rw [MIN_COST]
            simp only [decide_eq_false_iff_not, not_le]
            linarith [not_lt.mp hc]
          · exact prefixSums_succ_penalty items hb hok.sums
        · exact absurd hx (by simp)
        · exact absurd hx (by simp)

theorem initialState_ok (items : List InputItem) (ll : LineLengths) (cur : ℚ) :
    StateOK items ll cur 0 initialState where
  ne := by simp [initialState]
  nodes := by
    intro a ha
    simp only [initialState, List.mem_singleton] at ha
    rw [ha]
    constructor
    · exact totals_zero_mem items
    · exact le_refl 0
    · intro _
      exact ⟨rfl, rfl⟩
    · intro h
      exact absurd h (by simp)
    · simp [Node.wfChain]
    · simp [Node.chainRatioOK]
    · intro k hk _
      exact absurd hk (Nat.not_lt_zero k)
  sums := rfl
  minAdj := Or.inl rfl
  forcedPrev := by
    intro h _
    exact absurd h (by simp)

theorem blLoop_spec (items : List InputItem) (ll : LineLengths)
    (opts : Options) (cur : ℚ) :
    ∀ (rest : List InputItem) (b : ℕ) (st : PassState),
      items.drop b = rest → b ≤ items.length →
      StateOK items ll cur b st →
      PassResultOK items ll opts cur (blLoop items ll opts cur b st rest) := by
  intro rest
  induction rest with
  | nil =>
    intro b st hdrop hble hok
    have hbn : b = items.length := by
      have := List.drop_eq_nil_iff.mp hdrop
      omega
    obtain ⟨a, rest2, hact⟩ := List.exists_cons_of_ne_nil hok.ne
    have hbest : ∃ best, pickBest st.active = some best := by
      rw [hact]
      simp [pickBest]
    obtain ⟨best, hbest⟩ := hbest
    have hmem : best ∈ st.active := pickBest_mem hbest
    have hN := hok.nodes best hmem
    show DoneOK items ll cur (finishPass st)
    refine ⟨best, ?_, hN.wf, hN.ratios, ?_, ?_⟩
    · simp [finishPass, hbest]
    · intro k hf
      have hk : k < items.length := by
        rcases hget : items.get? k with _ | it
        · rw [isForcedAt] at hf
          rw [hget] at hf
          exact absurd hf (by simp)
        · exact (List.get?_eq_some.mp hget).1
      rw [← hbn] at hk
      exact hN.forcedMem k hk hf
    · intro hpos hf
      rw [← hbn] at hpos hf ⊢
      exact hok.forcedPrev hpos hf best hmem
  | cons item rest2 ih =>
    intro b st hdrop hble hok
    have hb : items.get? b = some item := by
      rw [List.get?_eq_getElem?]
      have := List.head?_drop items b
      rw [hdrop] at this
      simpa using this.symm
    have hdrop2 : items.drop (b + 1) = rest2 := by
      have := List.tail_drop items b
      rw [hdrop] at this
      exact this.symm
    have hblt : b < items.length := (List.get?_eq_some.mp hb).1
    have hspec := blStep_spec items ll opts cur b item rest2 st hok hb
      (by rw [hdrop])
    show PassResultOK items ll opts cur (blLoop items ll opts cur b st (item :: rest2))
    rw [blLoop]
    rcases hstep : blStep items ll opts cur b item (item :: rest2) st with
      st2 | q | e
    · exact ih (b + 1) st2 hdrop2 hblt (hspec.1 st2 hstep)
    · exact hspec.2.1 q hstep
    · exact hspec.2.2 e hstep

theorem blPass_spec (items : List InputItem) (ll : LineLengths) (opts : Options) :
    PassResultOK items ll opts (currentMax opts) (blPass items ll opts) :=
  blLoop_spec items ll opts (currentMax opts) items 0 initialState rfl
    (Nat.zero_le _) (initialState_ok items ll (currentMax opts))

theorem currentMax_le_cap (opts : Options) {m : ℚ}
    (hm : opts.maxAdjustmentRatio = some m) : currentMax opts ≤ m := by
  unfold currentMax
  rw [hm]
  exact min_le_right _ _

theorem currentMax_none (i dh alt : ℚ) :
    currentMax ⟨none, i, dh, alt⟩ = i := rfl

theorem currentMax_some (m i dh alt : ℚ) :
    currentMax ⟨some m, i, dh, alt⟩ = min i m := rfl

theorem options_update_eval (mx : Option ℚ) (i dh alt q : ℚ) :
    ({ (⟨mx, i, dh, alt⟩ : Options) with initialMaxAdjustmentRatio := q }
      : Options) = ⟨mx, q, dh, alt⟩ := rfl

theorem muMeasure_eval (items : List InputItem) (ll : LineLengths)
    (mx : Option ℚ) (i dh alt : ℚ) :
    muMeasure items ll ⟨mx, i, dh, alt⟩ =
      2 * ((ratioSetQ items ll).filter
        (fun r => currentMax ⟨mx, i, dh, alt⟩ < r)).card +
      (if mx = some (currentMax ⟨mx, i, dh, alt⟩) then 0 else 1) := rfl

theorem mu_decrease (items : List InputItem) (ll : LineLengths) (opts : Options)
    (q : ℚ) (hqR : q ∈ ratioSetQ items ll) (hgt : currentMax opts < q)
    (hne : opts.maxAdjustmentRatio ≠ some (currentMax opts)) :
    muMeasure items ll { opts with initialMaxAdjustmentRatio := q } <
      muMeasure items ll opts := by
  have hstrict : ∀ c : ℚ, currentMax opts < c → c ∈ ratioSetQ items ll →
      ((ratioSetQ items ll).filter (fun r => c < r)).card <
        ((ratioSetQ items ll).filter (fun r => currentMax opts < r)).card := by
    intro c hc1 hcR
    apply Finset.card_lt_card
    constructor
    · intro r hr
      rw [Finset.mem_filter] at hr ⊢
      exact ⟨hr.1, lt_trans hc1 hr.2⟩
    · intro hsub
      have : c ∈ (ratioSetQ items ll).filter (fun r => c < r) := by
        apply hsub
        rw [Finset.mem_filter]
        exact ⟨hcR, hc1⟩
      rw [Finset.mem_filter] at this
      exact absurd this.2 (lt_irrefl c)
  have hmono : ∀ c : ℚ, currentMax opts ≤ c →
      ((ratioSetQ items ll).filter (fun r => c < r)).card ≤
        ((ratioSetQ items ll).filter (fun r => currentMax opts < r)).card := by
    intro c hc
    apply Finset.card_le_card
    intro r hr
    rw [Finset.mem_filter] at hr ⊢
    exact ⟨hr.1, lt_of_le_of_lt hc hr.2⟩
  obtain ⟨maxAdj, init, dh, alt⟩ := opts
  rw [options_update_eval, muMeasure_eval, muMeasure_eval]
  rcases maxAdj with _ | m
  · -- no hard cap: the new threshold is exactly `q`
    rw [currentMax_none] at hstrict hmono hgt hne ⊢
    rw [currentMax_none]
    simp only [reduceCtorEq, if_false]
    have := hstrict q hgt hqR
    omega
  · -- hard cap `m`: the old threshold lies strictly below `m`
    rw [currentMax_some] at hstrict hmono hgt hne ⊢
    rw [currentMax_some]
    have hmne : m ≠ min init m := fun h => hne (by rw [← h])
    have hcurm : min init m < m :=
      lt_of_le_of_ne (min_le_right _ _) (fun h => hmne h.symm)
    rcases le_or_lt q m with hqm | hqm
    · -- the new threshold is `q`
      rw [min_eq_left hqm]
      have hf1 : (if some m = some q then (0:ℕ) else 1) ≤ 1 := by
        split <;> omega
      have hf2 : (if some m = some (min init m) then (0:ℕ) else 1) = 1 := by
        rw [if_neg]
        intro h
        exact hmne (by injection h)
      have := hstrict q hgt hqR
      omega
    · -- the new threshold is the hard cap `m` and the flag drops to zero
      rw [min_eq_right (le_of_lt hqm)]
      have hf1 : (if some m = some m then (0:ℕ) else 1) = 0 := by simp
      have hf2 : (if some m = some (min init m) then (0:ℕ) else 1) = 1 := by
        rw [if_neg]
        intro h
        exact hmne (by injection h)
      have := hmono m (le_of_lt hcurm)
      omega

theorem breakLinesFuel_ne_none (items : List InputItem) (ll : LineLengths) :
    ∀ (fuel : ℕ) (opts : Options), muMeasure items ll opts < fuel →
      breakLinesFuel fuel items ll opts ≠ none := by
  intro fuel
  induction fuel with
  | zero => intro opts h; exact absurd h (Nat.not_lt_zero _)
  | succ fuel ih =>
    intro opts h
    rw [breakLinesFuel]
    by_cases hempty : items = []
    · rw [if_pos hempty]
      simp
    · rw [if_neg hempty]
      rcases hpass : blPass items ll opts with bps | q | e <;> simp only [hpass]
      · simp
      · have hok := blPass_spec items ll opts
        rw [hpass] at hok
        obtain ⟨hqR, hgt, hne⟩ := hok
        apply ih
        have := mu_decrease items ll opts q hqR hgt hne
        omega
      · simp

theorem muMeasure_lt_fuelBound (items : List InputItem) (ll : LineLengths)
    (opts : Options) : muMeasure items ll opts < fuelBound items := by
  unfold muMeasure fuelBound
  have h1 : ((ratioSetQ items ll).filter
      (fun r => currentMax opts < r)).card ≤ (ratioSetQ items ll).card :=
    Finset.card_filter_le _ _
  have h2 := ratioSetQ_card_le items ll
  have h3 : (if opts.maxAdjustmentRatio = some (currentMax opts)
      then (0:ℕ) else 1) ≤ 1 := by split <;> omega
  omega

theorem breakLines_ne_none (items : List InputItem) (ll : LineLengths)
    (opts : Options) : breakLines items ll opts ≠ none :=
  breakLinesFuel_ne_none items ll (fuelBound items) opts
    (muMeasure_lt_fuelBound items ll opts)

theorem currentMax_le_retry (opts : Options) (q : ℚ)
    (hgt : currentMax opts < q) :
    currentMax opts ≤ currentMax { opts with initialMaxAdjustmentRatio := q } := by
  obtain ⟨maxAdj, init, dh, alt⟩ := opts
  rw [options_update_eval maxAdj init dh alt q]
  rcases maxAdj with _ | m
  · rw [currentMax_none] at hgt
    rw [currentMax_none, currentMax_none]
    exact le_of_lt hgt
  · rw [currentMax_some] at hgt
    rw [currentMax_some, currentMax_some]
    exact le_min (le_of_lt hgt) (min_le_right _ _)

theorem breakLinesFuel_ok (items : List InputItem) (ll : LineLengths) :
    ∀ (fuel : ℕ) (opts : Options) (out : List ℕ),
      breakLinesFuel fuel items ll opts = some (.ok out) →
      (items = [] ∧ out = []) ∨
      ∃ cur : ℚ, currentMax opts ≤ cur ∧
        (∀ m, opts.maxAdjustmentRatio = some m → cur ≤ m) ∧
        DoneOK items ll cur out := by
  intro fuel
  induction fuel with
  | zero => intro opts out h; simp [breakLinesFuel] at h
  | succ fuel ih =>
    intro opts out h
    rw [breakLinesFuel] at h
    by_cases hempty : items = []
    · rw [if_pos hempty] at h
      simp only [Option.some.injEq, Except.ok.injEq] at h
      exact Or.inl ⟨hempty, h.symm⟩
    · rw [if_neg hempty] at h
      rcases hpass : blPass items ll opts with bps | q | e <;> simp only [hpass] at h
      · -- completed pass at this threshold
        simp only [Option.some.injEq, Except.ok.injEq] at h
        have hok := blPass_spec items ll opts
        rw [hpass] at hok
        refine Or.inr ⟨currentMax opts, le_refl _, ?_, ?_⟩
        · intro m hm
          exact currentMax_le_cap opts hm
        · rw [← h]
          exact hok
      · -- retry with a strictly larger threshold
        have hok := blPass_spec items ll opts
        rw [hpass] at hok
        obtain ⟨hqR, hgt, hne⟩ := hok
        rcases ih _ _ h with ⟨hnil, _⟩ | ⟨cur, hcur1, hcur2, hdone⟩
        · exact absurd hnil hempty
        · refine Or.inr ⟨cur, ?_, ?_, hdone⟩
          · exact le_trans (currentMax_le_retry opts q hgt) hcur1
          · intro m hm
            exact hcur2 m hm
      · simp at h

theorem breakLinesFuel_err (items : List InputItem) (ll : LineLengths) :
    ∀ (fuel : ℕ) (opts : Options) (e : BreakError),
      breakLinesFuel fuel items ll opts = some (.error e) →
      e ≠ .nullLastActive ∧
        (e = .maxAdjustmentExceeded → opts.maxAdjustmentRatio ≠ none) := by
  intro fuel
  induction fuel with
  | zero => intro opts e h; simp [breakLinesFuel] at h
  | succ fuel ih =>
    intro opts e h
    rw [breakLinesFuel] at h
    by_cases hempty : items = []
    · rw [if_pos hempty] at h
      simp at h
    · rw [if_neg hempty] at h
      rcases hpass : blPass items ll opts with bps | q | e2 <;> simp only [hpass] at h
      · simp at h
      · have h2 := ih _ _ h
        exact ⟨h2.1, h2.2⟩
      · simp only [Option.some.injEq, Except.error.injEq] at h
        have hok := blPass_spec items ll opts
        rw [hpass] at hok
        rw [← h]
        refine ⟨hok.1, ?_⟩
        intro hmax hcontra
        have := hok.2 hmax
        rw [hcontra] at this
        exact absurd this (by simp)

theorem blStep_invalid (items : List InputItem) (ll : LineLengths)
    (opts : Options) (cur : ℚ) (b : ℕ) (item : InputItem)
    (restAll : List InputItem) (st : PassState)
    (hinv : item.invalid) :
    ∃ e, blStep items ll opts cur b item restAll st = .err e := by
  rcases item with w | ⟨w, stc, shr⟩ | ⟨w, c, fl⟩
  · rw [InputItem.invalid] at hinv
    exact ⟨.negativeWidth b,
      by simp only [blStep, InputItem.width]; rw [if_pos hinv]⟩
  · rw [InputItem.invalid] at hinv
    by_cases hw : w < 0
    · exact ⟨.negativeWidth b,
        by simp only [blStep, InputItem.width]; rw [if_pos hw]⟩
    · have hss : shr < 0 ∨ stc < 0 := by
        rcases hinv with h | h
        · exact absurd h hw
        · exact h
      refine ⟨.negativeStretchShrink b, ?_⟩
      simp only [blStep, InputItem.width]
      rw [if_neg hw, if_pos hss]
  · rw [InputItem.invalid] at hinv
    exact ⟨.negativeWidth b,
      by simp only [blStep, InputItem.width]; rw [if_pos hinv]⟩

theorem blLoop_invalid (items : List InputItem) (ll : LineLengths)
    (opts : Options) (cur : ℚ) :
    ∀ (rest : List InputItem) (b : ℕ) (st : PassState),
      items.drop b = rest →
      (∃ j item2, b ≤ j ∧ items.get? j = some item2 ∧ item2.invalid) →
      ∀ out, blLoop items ll opts cur b st rest ≠ .done out := by
  intro rest
  induction rest with
  | nil =>
    intro b st hdrop hinv out
    obtain ⟨j, item2, hbj, hget, _⟩ := hinv
    have hlen : items.length ≤ b := List.drop_eq_nil_iff.mp hdrop
    have := (List.get?_eq_some.mp hget).1
    omega
  | cons item rest2 ih =>
    intro b st hdrop hinv out
    have hb : items.get? b = some item := by
      rw [List.get?_eq_getElem?]
      have := List.head?_drop items b
      rw [hdrop] at this
      simpa using this.symm
    have hdrop2 : items.drop (b + 1) = rest2 := by
      have := List.tail_drop items b
      rw [hdrop] at this
      exact this.symm
    obtain ⟨j, item2, hbj, hget, hinv2⟩ := hinv
    rw [blLoop]
    rcases hstep : blStep items ll opts cur b item (item :: rest2) st with
      st2 | q | e
    · -- the step continued, so the invalid item is strictly later
      have hne : b ≠ j := by
        intro hbeq
        rw [← hbeq] at hget
        rw [hb] at hget
        have : item = item2 := by injection hget
        obtain ⟨e, he⟩ := blStep_invalid items ll opts cur b item
          (item :: rest2) st (this ▸ hinv2)
        rw [he] at hstep
        exact absurd hstep (by simp)
      exact ih (b + 1) st2 hdrop2 ⟨j, item2, by omega, hget, hinv2⟩ out
    · simp
    · simp

theorem breakLinesFuel_invalid (items : List InputItem) (ll : LineLengths) :
    ∀ (fuel : ℕ) (opts : Options),
      (∃ j item2, items.get? j = some item2 ∧ item2.invalid) →
      ∀ out, breakLinesFuel fuel items ll opts ≠ some (.ok out) := by
  intro fuel
  induction fuel with
  | zero => intro opts _ out; simp [breakLinesFuel]
  | succ fuel ih =>
    intro opts hinv out
    rw [breakLinesFuel]
    by_cases hempty : items = []
    · exfalso
      obtain ⟨j, item2, hget, _⟩ := hinv
      rw [hempty] at hget
      simp at hget
    · rw [if_neg hempty]
      rcases hpass : blPass items ll opts with bps | q | e <;> simp only [hpass]
      · exfalso
        obtain ⟨j, item2, hget, hinv2⟩ := hinv
        exact blLoop_invalid items ll opts (currentMax opts) items 0
          initialState rfl ⟨j, item2, Nat.zero_le _, hget, hinv2⟩ bps hpass
      · exact ih _ hinv out
      · simp

theorem posAccum_line (items : List InputItem) (start lend b : ℕ)
    (ig : Bool) (r : JNum) :
    ∀ (idxs : List ℕ) (x : JNum),
      ∀ rec ∈ posAccum items start lend b ig r idxs x, rec.line = b := by
  intro idxs
  induction idxs with
  | nil => intro x rec h; simp [posAccum] at h
  | cons p rest ih =>
    intro x rec h
    simp only [posAccum] at h
    rcases hget : items.get? p with _ | it
    · simp only [hget] at h
      exact ih _ rec h
    · rcases it with w | ⟨w, stc, shr⟩ | ⟨w, c, fl⟩ <;> simp only [hget] at h
      · rcases List.mem_cons.mp h with h1 | h1
        · rw [h1]
        · exact ih _ rec h1
      · by_cases hmid : p ≠ start ∧ p ≠ lend
        · rw [if_pos hmid] at h
          rcases List.mem_append.mp h with h1 | h1
          · rcases ig with _ | _
            · simp at h1
            · simp only [if_true] at h1
              simp at h1
              rw [h1]
          · exact ih _ rec h1
        · rw [if_neg hmid] at h
          exact ih _ rec h
      · by_cases hend : p = lend ∧ 0 < w
        · rw [if_pos hend] at h
          rcases List.mem_cons.mp h with h1 | h1
          · rw [h1]
          · exact ih _ rec h1
        · rw [if_neg hend] at h
          exact ih _ rec h

theorem flatMap_filter_nil (f : ℕ → List PositionedItem) (b : ℕ) :
    ∀ (ns : List ℕ), b ∉ ns →
      (∀ b2 ∈ ns, ∀ rec ∈ f b2, rec.line = b2) →
      (ns.flatMap f).filter (fun rec => rec.line = b) = [] := by
  intro ns
  induction ns with
  | nil => intro _ _; simp
  | cons a ns ih =>
    intro hb hf
    rw [List.flatMap_cons, List.filter_append]
    rw [ih (fun h => hb (List.mem_cons_of_mem _ h))
      (fun b2 h2 => hf b2 (List.mem_cons_of_mem _ h2))]
    rw [List.append_nil]
    apply List.filter_eq_nil_iff.mpr
    intro rec hrec
    have := hf a (List.mem_cons_self _ _) rec hrec
    simp only [this]
    simp only [decide_eq_true_eq]
    intro h
    exact hb (h ▸ List.mem_cons_self _ _)

theorem flatMap_filter_eq (f : ℕ → List PositionedItem) (b : ℕ) :
    ∀ (ns : List ℕ), ns.Nodup → b ∈ ns →
      (∀ b2 ∈ ns, ∀ rec ∈ f b2, rec.line = b2) →
      (ns.flatMap f).filter (fun rec => rec.line = b) = f b := by
  intro ns
  induction ns with
  | nil => intro _ h; exact absurd h (List.not_mem_nil b)
  | cons a ns ih =>
    intro hnd hb hf
    rw [List.flatMap_cons, List.filter_append]
    rcases List.mem_cons.mp hb with h1 | h1
    · subst h1
      have hnotin : b ∉ ns := (List.nodup_cons.mp hnd).1
      rw [flatMap_filter_nil f b ns hnotin
        (fun b2 h2 => hf b2 (List.mem_cons_of_mem _ h2))]
      rw [List.append_nil]
      apply List.filter_eq_self.mpr
      intro rec hrec
      have := hf b (List.mem_cons_self _ _) rec hrec
      simp [this]
    · have ha : a ≠ b := by
        intro h
        rw [h] at hnd
        exact (List.nodup_cons.mp hnd).1 h1
      rw [ih (List.nodup_cons.mp hnd).2 h1
        (fun b2 h2 => hf b2 (List.mem_cons_of_mem _ h2))]
      have : (f a).filter (fun rec => rec.line = b) = [] := by
        apply List.filter_eq_nil_iff.mpr
        intro rec hrec
        have := hf a (List.mem_cons_self _ _) rec hrec
        simp only [this]
        simp only [decide_eq_true_eq]
        exact ha
      rw [this, List.nil_append]

theorem JNum.add_fin (a b : ℚ) : (JNum.fin a).add (.fin b) = .fin (a + b) := rfl

theorem JNum.mul_fin (a b : ℚ) : (JNum.fin a).mul (.fin b) = .fin (a * b) := rfl

theorem JNum.ltQ_fin (a c : ℚ) : (JNum.fin a).ltQ c = decide (a < c) := rfl

theorem arAccum_nonneg (items : List InputItem) (start lend : ℕ)
    (hv : validGlue items) :
    ∀ (idxs : List ℕ) (aw lsh lst : ℚ), 0 ≤ lsh → 0 ≤ lst →
      0 ≤ (arAccum items start lend idxs (aw, lsh, lst)).2.1 ∧
      0 ≤ (arAccum items start lend idxs (aw, lsh, lst)).2.2 := by
  intro idxs
  induction idxs with
  | nil => intro aw lsh lst h1 h2; exact ⟨h1, h2⟩
  | cons p rest ih =>
    intro aw lsh lst h1 h2
    rcases hget : items.get? p with _ | it
    · simp only [arAccum, hget]
      exact ih _ _ _ h1 h2
    · rcases it with w | ⟨w, stc, shr⟩ | ⟨w, c, fl⟩ <;> simp only [arAccum, hget]
      · exact ih _ _ _ h1 h2
      · have hmem : InputItem.glue w stc shr ∈ items := List.get?_mem hget
        have hg := hv _ hmem
        by_cases hmid : p ≠ start ∧ p ≠ lend
        · rw [if_pos hmid]
          exact ih _ _ _ (by linarith [hg.2]) (by linarith [hg.1])
        · rw [if_neg hmid]
          exact ih _ _ _ h1 h2
      · by_cases hend : p = lend
        · rw [if_pos hend]
          exact ih _ _ _ h1 h2
        · rw [if_neg hend]
          exact ih _ _ _ h1 h2

theorem nilAppendRecs (l : List PositionedItem) : List.append [] l = l := rfl

theorem posAccum_sum (items : List InputItem) (start lend b : ℕ) (q : ℚ)
    (hvw : validWidth items) :
    ∀ (idxs : List ℕ) (x : JNum) (aw lsh lst : ℚ),
      recsWidthSum (posAccum items start lend b true (.fin q) idxs x) =
        .fin (((arAccum items start lend idxs (aw, lsh, lst)).1 - aw) +
          q * (if q < 0
            then (arAccum items start lend idxs (aw, lsh, lst)).2.1 - lsh
            else (arAccum items start lend idxs (aw, lsh, lst)).2.2 - lst)) := by
  intro idxs
  induction idxs with
  | nil =>
    intro x aw lsh lst
    simp only [posAccum, arAccum, recsWidthSum]
    congr 1
    split <;> ring
  | cons p rest ih =>
    intro x aw lsh lst
    rcases hget : items.get? p with _ | it
    · simp only [posAccum, arAccum, hget]
      exact ih _ _ _ _
    · rcases it with w | ⟨w, stc, shr⟩ | ⟨w, c, fl⟩ <;>
        simp only [posAccum, arAccum, hget]
      · -- box
        rw [recsWidthSum, ih _ (aw + w) lsh lst, JNum.add_fin]
        congr 1
        split <;> ring
      · -- glue
        by_cases hmid : p ≠ start ∧ p ≠ lend
        · rw [if_pos hmid, if_pos hmid]
          by_cases hq : q < 0
          · have hgap : (if (JNum.fin q).ltQ 0 = true
                then (JNum.fin w).add ((JNum.fin q).mul (.fin shr))
                else (JNum.fin w).add ((JNum.fin q).mul (.fin stc))) =
                .fin (w + q * shr) := by
              rw [JNum.ltQ_fin, if_pos (by simpa using hq), JNum.mul_fin,
                JNum.add_fin]
            rw [hgap]
            simp only [if_true, List.singleton_append, List.nil_append,
              List.cons_append, recsWidthSum, nilAppendRecs]
            rw [ih _ (aw + w) (lsh + shr) (lst + stc), JNum.add_fin]
            congr 1
            rw [if_pos hq, if_pos hq]
            ring
          · have hgap : (if (JNum.fin q).ltQ 0 = true
                then (JNum.fin w).add ((JNum.fin q).mul (.fin shr))
                else (JNum.fin w).add ((JNum.fin q).mul (.fin stc))) =
                .fin (w + q * stc) := by
              rw [JNum.ltQ_fin, if_neg (by simpa using hq), JNum.mul_fin,
                JNum.add_fin]
            rw [hgap]
            simp only [if_true, List.singleton_append, List.nil_append,
              List.cons_append, recsWidthSum, nilAppendRecs]
            rw [ih _ (aw + w) (lsh + shr) (lst + stc), JNum.add_fin]
            congr 1
            rw [if_neg hq, if_neg hq]
            ring
        · rw [if_neg hmid, if_neg hmid]
          exact ih _ _ _ _
      · -- penalty
        have hw : 0 ≤ w := by
          have hmem : InputItem.penalty w c fl ∈ items := List.get?_mem hget
          exact hvw _ hmem
        by_cases hend : p = lend
        · rw [if_pos hend]
          rcases lt_or_eq_of_le hw with hw2 | hw2
          · rw [if_pos ⟨hend, hw2⟩]
            rw [recsWidthSum, ih _ (aw + w) lsh lst, JNum.add_fin]
            congr 1
            split <;> ring
          · rw [if_neg (by rw [← hw2]; intro h; exact absurd h.2 (lt_irrefl 0))]
            rw [ih _ (aw + w) lsh lst]
            congr 1
            rw [← hw2]
            split <;> ring
        · rw [if_neg hend, if_neg (fun h => hend h.1)]
          exact ih _ _ _ _

theorem JNum.jmax_fin (a b : ℚ) : (JNum.fin a).jmax (.fin b) = .fin (max a b) := rfl

theorem divQ_fin_eq {p d q : ℚ} (h : JNum.divQ (.fin p) d = .fin q) :
    d ≠ 0 ∧ q = p / d := by
  by_cases hd : d ≠ 0
  · rw [JNum.divQ, if_pos hd] at h
    refine ⟨hd, ?_⟩
    injection h with h2
    exact h2.symm
  · rw [JNum.divQ, if_neg hd] at h
    rcases lt_trichotomy p 0 with hp | hp | hp
    · rw [if_neg (by linarith), if_pos hp] at h
      exact absurd h (by simp)
    · rw [if_neg (by rw [hp]; exact lt_irrefl 0),
        if_neg (by rw [hp]; exact lt_irrefl 0)] at h
      exact absurd h (by simp)
    · rw [if_pos hp] at h
      exact absurd h (by simp)

theorem adjRatioCore_fin_cases (ideal : JNum) (a st sh q : ℚ)
    (h : adjRatioCore ideal a st sh = .fin q) :
    ∃ L, ideal = .fin L ∧
      ((a < L ∧ st ≠ 0 ∧ q = (L - a) / st) ∨
        (L ≤ a ∧ sh ≠ 0 ∧ q = (L - a) / sh)) := by
  rcases ideal with _ | _ | L | _
  · rw [adjRatioCore] at h
    split at h <;> exact absurd h (by simp [JNum.subQ, JNum.divQ])
  · rw [adjRatioCore] at h
    rw [if_neg (by simp [JNum.qLt])] at h
    simp only [JNum.subQ, JNum.divQ] at h
    split at h <;> exact absurd h (by simp)
  · refine ⟨L, rfl, ?_⟩
    rw [adjRatioCore] at h
    by_cases hlt : a < L
    · rw [if_pos (by simpa [JNum.qLt] using hlt)] at h
      simp only [JNum.subQ] at h
      obtain ⟨hd, hq⟩ := divQ_fin_eq h
      exact Or.inl ⟨hlt, hd, hq⟩
    · rw [if_neg (by simpa [JNum.qLt] using hlt)] at h
      simp only [JNum.subQ] at h
      obtain ⟨hd, hq⟩ := divQ_fin_eq h
      exact Or.inr ⟨le_of_not_lt hlt, hd, hq⟩
  · rw [adjRatioCore] at h
    rw [if_pos (by simp [JNum.qLt])] at h
    simp only [JNum.subQ, JNum.divQ] at h
    split at h <;> exact absurd h (by simp)


/-- Claim C6: for every line produced by `positionItems` whose unclamped
adjustment ratio is finite and at least `MIN_ADJUSTMENT_RATIO` (so the line
did not go through the step-6 fallback), the sum of the widths of the
emitted box and penalty records plus the glue gaps advanced on that line
equals `lineLen(line)` exactly. -/
theorem positionItems_line_sum (items : List InputItem) (ll : LineLengths)
    (breakpoints : List ℕ) (b : ℕ) (q : ℚ)
    (hvw : validWidth items) (hvg : validGlue items)
    (hr : (adjustmentRatios items ll breakpoints).get? b = some (.fin q))
    (hq : MIN_ADJUSTMENT_RATIO ≤ q) :
    ∃ L, lineLen ll b = .fin L ∧
      lineWidthSum (positionItems items ll breakpoints ⟨true⟩) b = .fin L := by
  rw [ MIN_ADJUSTMENT_RATIO] at hq
  have hblen : b < breakpoints.length - 1 := by
    have := List.get?_eq_some.mp hr |>.1
    rw [adjustmentRatios, List.length_map, List.length_range] at this
    exact this
  have hF : adjRatioCore (lineLen ll b)
      (arAccum items (lineStartIdx breakpoints b) (lineEndIdx breakpoints b)
        (lineIdxList breakpoints b) (0, 0, 0)).1
      (arAccum items (lineStartIdx breakpoints b) (lineEndIdx breakpoints b)
        (lineIdxList breakpoints b) (0, 0, 0)).2.2
      (arAccum items (lineStartIdx breakpoints b) (lineEndIdx breakpoints b)
        (lineIdxList breakpoints b) (0, 0, 0)).2.1 = .fin q := by
    rw [adjustmentRatios] at hr
    rw [List.get?_map] at hr
    rw [List.get?_range hblen] at hr
    simpa using hr
  have hfilter : (positionItems items ll breakpoints ⟨true⟩).filter
      (fun rec => rec.line = b) =
      posAccum items (lineStartIdx breakpoints b) (lineEndIdx breakpoints b) b
        true ((((adjustmentRatios items ll breakpoints).getD b .nan)).jmax
          (.fin MIN_ADJUSTMENT_RATIO))
        (lineIdxList breakpoints b) (.fin 0) := by
    rw [positionItems]
    exact flatMap_filter_eq _ b (List.range (breakpoints.length - 1))
      (List.nodup_range _) (List.mem_range.mpr hblen)
      (fun b2 _ rec hrec => posAccum_line items _ _ b2 _ _ _ _ rec hrec)
  have hclamp : (((adjustmentRatios items ll breakpoints).getD b .nan)).jmax
      (.fin MIN_ADJUSTMENT_RATIO) = .fin q := by
    have hgd : (adjustmentRatios items ll breakpoints).getD b .nan = .fin q := by
      rw [List.getD_eq_getElem?_getD, ← List.get?_eq_getElem?, hr]
      rfl
    rw [hgd, JNum.jmax_fin, MIN_ADJUSTMENT_RATIO, max_eq_left hq]
  obtain ⟨L, hL, hcase⟩ := adjRatioCore_fin_cases _ _ _ _ _ hF
  refine ⟨L, hL, ?_⟩
  rw [lineWidthSum, hfilter, hclamp]
  rw [posAccum_sum items _ _ b q hvw (lineIdxList breakpoints b) (.fin 0) 0 0 0]
  have hnon := arAccum_nonneg items (lineStartIdx breakpoints b)
    (lineEndIdx breakpoints b) hvg (lineIdxList breakpoints b) 0 0 0
    le_rfl le_rfl
  rcases hcase with ⟨hlt, hst, hqv⟩ | ⟨hle, hsh, hqv⟩
  · -- stretch case: the ratio is positive
    have hstpos : 0 < (arAccum items (lineStartIdx breakpoints b)
        (lineEndIdx breakpoints b) (lineIdxList breakpoints b) (0, 0, 0)).2.2 :=
      lt_of_le_of_ne hnon.2 (Ne.symm hst)
    have hqpos : 0 < q := by
      rw [hqv]
      exact div_pos (by linarith) hstpos
    rw [if_neg (not_lt.mpr (le_of_lt hqpos))]
    congr 1
    simp only [sub_zero]
    rw [hqv, div_mul_cancel₀ _ hst]
    ring
  · -- shrink case: the ratio is nonpositive
    have hshpos : 0 < (arAccum items (lineStartIdx breakpoints b)
        (lineEndIdx breakpoints b) (lineIdxList breakpoints b) (0, 0, 0)).2.1 :=
      lt_of_le_of_ne hnon.1 (Ne.symm hsh)
    have hqle : q ≤ 0 := by
      rw [hqv]
      exact div_nonpos_of_nonpos_of_nonneg (by linarith) (le_of_lt hshpos)
    by_cases hneg : q < 0
    · rw [if_pos hneg]
      congr 1
      simp only [sub_zero]
      rw [hqv, div_mul_cancel₀ _ hsh]
      ring
    · have hq0 : q = 0 := le_antisymm hqle (not_lt.mp hneg)
      have hLa : L = (arAccum items (lineStartIdx breakpoints b)
          (lineEndIdx breakpoints b) (lineIdxList breakpoints b) (0, 0, 0)).1 := by
        have := hqv
        rw [hq0] at this
        have h0 := (div_eq_zero_iff.mp this.symm).resolve_right hsh
        linarith
      rw [if_neg hneg, hq0, hLa]
      congr 1
      ring

/-- Claim C4: for `items = [box(5), glue(5,10,10), box(100), glue(5,10,10),
forcedBreak()]` with `lineWidth = 50` and default options, `breakLines`
returns exactly `[0, 3, 4]`: the oversize box triggers the empty-active
fallback, which injects a breakpoint rather than raising an error. -/
theorem claim_C4 :
    breakLines [InputItem.box 5, .glue 5 10 10, .box 100, .glue 5 10 10,
        .penalty 0 (-1000) false] (.const 50) defaultOptions =
      some (.ok [0, 3, 4]) := by
  with_unfolding_all rfl

/-- Claim C9: `breakLines` terminates on every finite item sequence,
line-length input and options: the retry recursion happens only finitely
often (the fuel bound is provably sufficient), so the call always returns a
value — a breakpoint list or an error — and never loops forever. -/
theorem claim_C9 (items : List InputItem) (ll : LineLengths) (opts : Options) :
    ∃ r, breakLines items ll opts = some r := by
  rcases h : breakLines items ll opts with _ | r
  · exact absurd h (breakLines_ne_none items ll opts)
  · exact ⟨r, rfl⟩

/-- Claim C10: whenever `breakLines` returns normally, every index `k` such
that `items[k]` is a penalty with cost at most `MIN_COST` (a forced break)
appears in the returned breakpoint list. -/
theorem claim_C10 (items : List InputItem) (ll : LineLengths) (opts : Options)
    (out : List ℕ) (h : breakLines items ll opts = some (.ok out)) :
    ∀ k, isForcedAt items k → k ∈ out := by
  intro k hk
  rcases breakLinesFuel_ok items ll (fuelBound items) opts out h with
    ⟨hemp, _⟩ | ⟨cur, _, _, best, hbps, _, _, hforced, _⟩
  · exfalso
    rw [hemp] at hk
    exact hk
  · rw [hbps, List.mem_reverse]
    exact hforced k hk

theorem claim_C10_witness :
    isForcedAt [InputItem.box 10, .glue 5 0 0, .box 10,
        .penalty 0 (-1000) false] 3 ∧
      3 ∈ ([0, 3] : List ℕ) := by
  have hf : isForcedAt [InputItem.box 10, .glue 5 0 0, .box 10,
      .penalty 0 (-1000) false] 3 :=
    (@isForcedAt_iff [InputItem.box 10, .glue 5 0 0, .box 10,
        .penalty 0 (-1000) false] 3 (.penalty 0 (-1000) false)
      (by with_unfolding_all rfl)).mpr (by with_unfolding_all rfl)
  exact ⟨hf, claim_C10 _ (.const 50) defaultOptions [0, 3]
    (by with_unfolding_all rfl) 3 hf⟩

/-- Claim C3: `breakLines` raises `MaxAdjustmentExceeded` only when the
caller set a non-null hard `maxAdjustmentRatio`; on
`[box(10), glue(5,10,10), box(10), forcedBreak()]` with `lineWidth = 100`
and `maxAdjustmentRatio = 1` it raises, and with `maxAdjustmentRatio` left
null it never raises `MaxAdjustmentExceeded`. -/
theorem claim_C3 :
    breakLines [InputItem.box 10, .glue 5 10 10, .box 10,
        .penalty 0 (-1000) false] (.const 100)
        { maxAdjustmentRatio := some 1, initialMaxAdjustmentRatio := 1,
          doubleHyphenPenalty := 0, adjacentLooseTightPenalty := 0 } =
      some (.error .maxAdjustmentExceeded) ∧
    ∀ (items : List InputItem) (ll : LineLengths) (opts : Options),
      opts.maxAdjustmentRatio = none →
      breakLines items ll opts ≠ some (.error .maxAdjustmentExceeded) := by
  constructor
  · with_unfolding_all rfl
  · intro items ll opts hnone h
    have he := breakLinesFuel_err items ll (fuelBound items) opts _ h
    exact absurd hnone (he.2 rfl)

theorem claim_C3_witness :
    defaultOptions.maxAdjustmentRatio = none ∧
      breakLines [InputItem.box 10, .glue 5 10 10, .box 10,
          .penalty 0 (-1000) false] (.const 100) defaultOptions ≠
        some (.error .maxAdjustmentExceeded) :=
  ⟨rfl, claim_C3.2 _ _ _ rfl⟩

/-- Claim C1 (amended): for every item sequence and breakpoint list
returned by `breakLines`, there is an effective threshold `cur` — at least
`currentMax opts` and at most the hard cap — such that the returned list is
the reversed chain of a node every link of which is either a feasible
transition whose optimizer-computed adjustment ratio lies in
`[MIN_ADJUSTMENT_RATIO, cur]`, or a step-6 fallback node; lines created by
the fallback may fall outside the interval. -/
theorem claim_C1 (items : List InputItem) (ll : LineLengths) (opts : Options)
    (out : List ℕ) (hne : items ≠ [])
    (h : breakLines items ll opts = some (.ok out)) :
    ∃ cur : ℚ, currentMax opts ≤ cur ∧
      (∀ m, opts.maxAdjustmentRatio = some m → cur ≤ m) ∧
      ∃ best : Node, out = best.chainIndices.reverse ∧
        best.chainRatioOK items ll cur := by
  rcases breakLinesFuel_ok items ll (fuelBound items) opts out h with
    ⟨hemp, _⟩ | ⟨cur, hc1, hc2, best, hbps, _, hratio, _, _⟩
  · exact absurd hemp hne
  · exact ⟨cur, hc1, hc2, best, hbps, hratio⟩

theorem claim_C1_witness :
    ([InputItem.box 10, .glue 5 0 0, .box 10, .penalty 0 (-1000) false] ≠
        ([] : List InputItem)) ∧
      (∃ cur : ℚ, currentMax defaultOptions ≤ cur ∧
        (∀ m, defaultOptions.maxAdjustmentRatio = some m → cur ≤ m) ∧
        ∃ best : Node, [0, 3] = best.chainIndices.reverse ∧
          best.chainRatioOK [InputItem.box 10, .glue 5 0 0, .box 10,
            .penalty 0 (-1000) false] (.const 50) cur) :=
  ⟨by simp, claim_C1 _ (.const 50) defaultOptions [0, 3] (by simp)
    (by with_unfolding_all rfl)⟩

theorem claim_C1_counterexample :
    breakLines [InputItem.box 5, .glue 5 10 10, .box 100, .glue 0 1000 0,
        .penalty 0 (-1000) false] (.const 50) defaultOptions =
      some (.ok [0, 3, 4]) ∧
    adjustmentRatios [InputItem.box 5, .glue 5 10 10, .box 100, .glue 0 1000 0,
        .penalty 0 (-1000) false] (.const 50) [0, 3, 4] =
      [.fin (-6), .posInf] ∧
    ((-6 : ℚ) < MIN_ADJUSTMENT_RATIO) :=
  ⟨by with_unfolding_all rfl, by with_unfolding_all rfl,
    by norm_num [ MIN_ADJUSTMENT_RATIO]⟩

/-- Claim C2 (amended): for every item sequence whose last item is a forced
break and every breakpoint list returned by `breakLines`, the first
breakpoint is 0, the breakpoints are nondecreasing and strictly increasing
after the first element (the leading 0 can repeat when a forced break
occurs at index 0), and the last breakpoint is the index of the final
forced-break penalty. -/
theorem claim_C2 (items : List InputItem) (ll : LineLengths) (opts : Options)
    (out : List ℕ)
    (hforced : isForcedAt items (items.length - 1))
    (h : breakLines items ll opts = some (.ok out)) :
    out.head? = some 0 ∧ List.Chain' (· ≤ ·) out ∧
      List.Chain' (· < ·) out.tail ∧
      out.getLast? = some (items.length - 1) := by
  have hne : items ≠ [] := by
    intro he
    rw [he] at hforced
    exact hforced
  rcases breakLinesFuel_ok items ll (fuelBound items) opts out h with
    ⟨hemp, _⟩ | ⟨cur, _, _, best, hbps, hwf, _, _, hfin⟩
  · exact absurd hemp hne
  · have hidx := hfin (List.length_pos.mpr hne) hforced
    obtain ⟨hle, hlt⟩ := wfChain_chain best hwf
    refine ⟨?_, ?_, ?_, ?_⟩
    · rw [hbps]
      exact wfChain_revHead best hwf
    · rw [hbps]
      exact hle
    · rw [hbps]
      exact hlt
    · rw [hbps, wfChain_revLast best, hidx]

theorem claim_C2_witness :
    isForcedAt [InputItem.box 10, .glue 5 0 0, .box 10,
        .penalty 0 (-1000) false] 3 ∧
      (([0, 3] : List ℕ).head? = some 0 ∧
        List.Chain' (· ≤ ·) ([0, 3] : List ℕ) ∧
        List.Chain' (· < ·) ([0, 3] : List ℕ).tail ∧
        ([0, 3] : List ℕ).getLast? = some 3) := by
  have hf : isForcedAt [InputItem.box 10, .glue 5 0 0, .box 10,
      .penalty 0 (-1000) false] 3 :=
    (@isForcedAt_iff [InputItem.box 10, .glue 5 0 0, .box 10,
        .penalty 0 (-1000) false] 3 (.penalty 0 (-1000) false)
      (by with_unfolding_all rfl)).mpr (by with_unfolding_all rfl)
  exact ⟨hf, claim_C2 _ (.const 50) defaultOptions [0, 3] hf
    (by with_unfolding_all rfl)⟩

theorem claim_C2_counterexample :
    breakLines [InputItem.penalty 10 (-1000) false, .glue 0 1000 0,
        .penalty 0 (-1000) false] (.const 5) defaultOptions =
      some (.ok [0, 0, 2]) ∧
    ¬ List.Chain' (· < ·) ([0, 0, 2] : List ℕ) :=
  ⟨by with_unfolding_all rfl, fun hc => absurd (List.chain'_cons.mp hc).1 (lt_irrefl 0)⟩

/-- Claim C5 (amended): in the optimizer's per-transition adjustment-ratio
computation, when the ideal length is finite and the available shrink
`sumShrink - a.totalShrink` is zero, the ratio is `-Infinity` when the
actual length strictly exceeds the ideal length, but `NaN` (not
`-Infinity`) when the actual length exactly equals the ideal length (the
`0/0` case). -/
theorem claim_C5 (ll : LineLengths) (item : InputItem)
    (sumWidth sumStretch sumShrink tW tSt tSh : ℚ) (line : ℕ) (L pw : ℚ)
    (hpw : (match item with | InputItem.penalty w _ _ => w | _ => 0) = pw)
    (hideal : lineLen ll line = .fin L)
    (hshr : sumShrink - tSh = 0) :
    (L < sumWidth - tW + pw →
      adjRatio ll item sumWidth sumStretch sumShrink tW tSt tSh line =
        .negInf) ∧
    (sumWidth - tW + pw = L →
      adjRatio ll item sumWidth sumStretch sumShrink tW tSt tSh line =
        .nan) := by
  have hA : adjRatio ll item sumWidth sumStretch sumShrink tW tSt tSh line =
      adjRatioCore (lineLen ll line) (sumWidth - tW + pw)
        (sumStretch - tSt) (sumShrink - tSh) := by
    rw [← hpw]
    rfl
  rw [hA, hideal, hshr]
  constructor
  · intro hlt
    rw [adjRatioCore,
      if_neg (by simp only [JNum.qLt, decide_eq_true_eq, not_lt]; linarith)]
    simp only [JNum.subQ, JNum.divQ]
    rw [if_neg (by simp), if_neg (by linarith), if_pos (by linarith)]
  · intro heq
    rw [adjRatioCore,
      if_neg (by simp only [JNum.qLt, decide_eq_true_eq, not_lt]; linarith)]
    simp only [JNum.subQ, JNum.divQ]
    rw [if_neg (by simp), if_neg (by linarith), if_neg (by linarith)]

theorem claim_C5_witness :
    ((match InputItem.glue 0 0 0 with
        | InputItem.penalty w _ _ => w | _ => 0) = (0 : ℚ)) ∧
      lineLen (.const 10) 0 = .fin 10 ∧ (10 : ℚ) - 10 = 0 ∧
      ((10 : ℚ) - 0 + 0 = 10) ∧
      adjRatio (.const 10) (.glue 0 0 0) 10 0 10 0 0 10 0 = .nan := by
  refine ⟨rfl, rfl, by norm_num, by norm_num, ?_⟩
  exact (claim_C5 (.const 10) (.glue 0 0 0) 10 0 10 0 0 10 0 10 0 rfl rfl
    (by norm_num)).2 (by norm_num)

theorem claim_C5_counterexample :
    adjRatio (.const 10) (.glue 0 0 0) 10 0 0 0 0 0 0 = .nan ∧
      JNum.nan ≠ JNum.negInf :=
  ⟨by with_unfolding_all rfl, by simp⟩

/-- Claim C7 (amended): for every input string, measure function and
optional hyphenate function, the item sequence returned by
`layoutItemsFromString` ends with a finishing glue of width 0, stretch
`MAX_COST` (a large finite constant, not a genuine infinity) and shrink 0,
followed by a forced-break penalty with cost `MIN_COST`, width 0 and
`flagged = false`. -/
theorem claim_C7 (s : String) (measureFn : String → ℚ)
    (hyphenateFn : Option (String → List String)) :
    ∃ pre, layoutItemsFromString s measureFn hyphenateFn =
      pre ++ [TextInputItem.glue 0 MAX_COST 0 "",
        TextInputItem.penalty 0 MIN_COST false] :=
  ⟨_, rfl⟩

theorem claim_C7_counterexample :
    layoutItemsFromString "a" (fun _ => 1) none =
      [TextInputItem.box 1 "a", .glue 0 1000 0 "",
        .penalty 0 (-1000) false] ∧
      MAX_COST = (1000 : ℚ) :=
  ⟨by with_unfolding_all rfl, by norm_num [MAX_COST]⟩

/-- Claim C8 (amended): for every input containing an item with negative
width, or a glue with negative stretch or shrink, `breakLines` returns no
breakpoint sequence — it always fails with some error; the error is one of
the two `InvalidItem` programmer errors when the scan reaches the invalid
item, but an earlier `MaxAdjustmentExceeded` can preempt it. -/
theorem claim_C8 (items : List InputItem) (ll : LineLengths) (opts : Options)
    (hinv : ∃ j item2, items.get? j = some item2 ∧ item2.invalid) :
    ∃ e, breakLines items ll opts = some (.error e) := by
  rcases h : breakLines items ll opts with _ | r
  · exact absurd h (breakLines_ne_none items ll opts)
  · rcases r with e | out
    · exact ⟨e, rfl⟩
    · exact absurd h (breakLinesFuel_invalid items ll (fuelBound items)
        opts hinv out)


theorem claim_C8_witness :
    (([InputItem.box (-5), .penalty 0 (-1000) false] : List InputItem).get? 0 =
        some (.box (-5)) ∧ InputItem.invalid (.box (-5))) ∧
      ∃ e, breakLines [InputItem.box (-5), .penalty 0 (-1000) false]
        (.const 50) defaultOptions = some (.error e) :=
  ⟨⟨rfl, by norm_num [InputItem.invalid]⟩,
    claim_C8 _ (.const 50) defaultOptions
      ⟨0, .box (-5), rfl, by norm_num [InputItem.invalid]⟩⟩

theorem claim_C8_counterexample :
    InputItem.invalid (InputItem.box (-5)) ∧
      breakLines [InputItem.box 10, .glue 5 10 10, .box 10,
          .penalty 0 (-1000) false, .box (-5)] (.const 100)
        { maxAdjustmentRatio := some 1, initialMaxAdjustmentRatio := 1,
          doubleHyphenPenalty := 0, adjacentLooseTightPenalty := 0 } =
        some (.error .maxAdjustmentExceeded) ∧
      BreakError.isInvalidItem .maxAdjustmentExceeded = false :=
  ⟨by norm_num [InputItem.invalid], by with_unfolding_all rfl, rfl⟩

theorem claim_C6_witness :
    validWidth [InputItem.box 10, .glue 5 10 10, .box 10,
        .penalty 0 (-1000) false] ∧
      validGlue [InputItem.box 10, .glue 5 10 10, .box 10,
        .penalty 0 (-1000) false] ∧
      (adjustmentRatios [InputItem.box 10, .glue 5 10 10, .box 10,
          .penalty 0 (-1000) false] (.const 50) [0, 3]).get? 0 =
        some (.fin (5 / 2)) ∧
      MIN_ADJUSTMENT_RATIO ≤ (5 / 2 : ℚ) ∧
      ∃ L, lineLen (.const 50) 0 = .fin L ∧
        lineWidthSum (positionItems [InputItem.box 10, .glue 5 10 10, .box 10,
          .penalty 0 (-1000) false] (.const 50) [0, 3] ⟨true⟩) 0 = .fin L := by
  have hvw : validWidth [InputItem.box 10, .glue 5 10 10, .box 10,
      .penalty 0 (-1000) false] := by
    intro it hit
    fin_cases hit <;> norm_num [InputItem.width]
  have hvg : validGlue [InputItem.box 10, .glue 5 10 10, .box 10,
      .penalty 0 (-1000) false] := by
    intro it hit
    fin_cases hit <;> norm_num
  refine ⟨hvw, hvg, by with_unfolding_all rfl,
    by norm_num [ MIN_ADJUSTMENT_RATIO], ?_⟩
  exact positionItems_line_sum _ (.const 50) [0, 3] 0 (5 / 2) hvw hvg
    (by with_unfolding_all rfl) (by norm_num [ MIN_ADJUSTMENT_RATIO])
